import Mathlib

/-!
Verification of the AritmathAPI core pipeline (src/tokenizer.py, src/parser.py,
src/app.py) against its natural-language specification.

Conventions of the shallow embedding:
* Python strings are modelled as `List Char`; Python `float` is modelled as `ℚ`
  (exact arithmetic; the spec's concrete values are exactly representable).
* Fallible Python code (raising `ValueError` / `SyntaxError`) is modelled with
  `Except (List Char)`, the error text mirroring the exception message.
* Non-structural recursions (the regex scanner advancing by match length, the
  recursive-descent parser) are expressed with an explicit fuel parameter so
  that every definition is kernel-computable; the wrappers supply fuel that is
  provably sufficient.
-/

deriving instance DecidableEq for Except

set_option allowUnsafeReducibility true
attribute [local semireducible] Rat.add Rat.mul Rat.inv Rat.div Rat.sub Rat.neg

namespace Aritmath

/-- Token kinds, mirroring the names of `token_patterns` in
`LexicalAnalyzer.__init__` (src/tokenizer.py).  `WHITESPACE` matches are
discarded by `tokenize` and never appear in its output, so no constructor is
needed for them. -/
inductive TokKind where
  | NUMBER | PLUS | MINUS | MULTIPLY | DIVIDE | LPAREN | RPAREN
  deriving DecidableEq, Repr

open TokKind

/-- A token is a `(value, type)` pair, as produced by
`LexicalAnalyzer.tokenize`. -/
abbrev Token := List Char × TokKind

/-- Printable name of a token kind, used in error messages
(`Expected RPAREN, got NUMBER`). -/
def kindName : TokKind → List Char
  | NUMBER => ['N','U','M','B','E','R']
  | PLUS => ['P','L','U','S']
  | MINUS => ['M','I','N','U','S']
  | MULTIPLY => ['M','U','L','T','I','P','L','Y']
  | DIVIDE => ['D','I','V','I','D','E']
  | LPAREN => ['L','P','A','R','E','N']
  | RPAREN => ['R','P','A','R','E','N']

/-- Python's `\s` on the ASCII range: space, tab, newline, carriage return,
form feed, vertical tab. -/
def isPySpace (c : Char) : Bool :=
  c = ' ' || c = '\t' || c = '\n' || c = '\r' || c = '\x0c' || c = '\x0b'

/-- `ValueError("Invalid character '<c>' at position <p>")` (src/tokenizer.py,
lines 55-59). -/
def invalidCharMsg (c : Char) (pos : ℕ) : List Char :=
  "Invalid character '".data ++ [c] ++ "' at position ".data ++ (toString pos).data

/-- The character scanner of `LexicalAnalyzer.tokenize` (src/tokenizer.py,
lines 27-61), with fuel making the recursion structural.  The compiled regex
alternation dispatches on the first character: a digit starts a maximal-munch
`NUMBER` match (`\d+(\.\d+)?`; the optional fractional group needs a dot
followed by at least one digit), each operator or parenthesis is a
single-character token, a whitespace run is matched maximally and discarded,
and any other character raises
`ValueError("Invalid character '<c>' at position <p>")`. -/
def tokenizeFuel : ℕ → ℕ → List Char → Except (List Char) (List Token)
  | _, _, [] => Except.ok []
  | 0, _, _ :: _ => Except.error ['f','u','e','l']
  | f + 1, pos, c :: rest =>
    if c.isDigit then
      let ds := List.takeWhile Char.isDigit (c :: rest)
      match List.dropWhile Char.isDigit (c :: rest) with
      | '.' :: d2 :: r2 =>
        if d2.isDigit then
          let fs := List.takeWhile Char.isDigit (d2 :: r2)
          let r3 := List.dropWhile Char.isDigit (d2 :: r2)
          (tokenizeFuel f (pos + ds.length + 1 + fs.length) r3).map
            (fun ts => (ds ++ '.' :: fs, NUMBER) :: ts)
        else
          (tokenizeFuel f (pos + ds.length) ('.' :: d2 :: r2)).map
            (fun ts => (ds, NUMBER) :: ts)
      | r1 =>
        (tokenizeFuel f (pos + ds.length) r1).map
          (fun ts => (ds, NUMBER) :: ts)
    else if c = '+' then
      (tokenizeFuel f (pos + 1) rest).map (fun ts => (['+'], PLUS) :: ts)
    else if c = '-' then
      (tokenizeFuel f (pos + 1) rest).map (fun ts => (['-'], MINUS) :: ts)
    else if c = '*' then
      (tokenizeFuel f (pos + 1) rest).map (fun ts => (['*'], MULTIPLY) :: ts)
    else if c = '/' then
      (tokenizeFuel f (pos + 1) rest).map (fun ts => (['/'], DIVIDE) :: ts)
    else if c = '(' then
      (tokenizeFuel f (pos + 1) rest).map (fun ts => (['('], LPAREN) :: ts)
    else if c = ')' then
      (tokenizeFuel f (pos + 1) rest).map (fun ts => ([')'], RPAREN) :: ts)
    else if isPySpace c then
      tokenizeFuel f (pos + (List.takeWhile isPySpace (c :: rest)).length)
        (List.dropWhile isPySpace (c :: rest))
    else
      Except.error (invalidCharMsg c pos)

/-- `LexicalAnalyzer.tokenize` as a function on Lean strings.  The scanner
consumes at least one character per step, so the length of the input is
sufficient fuel. -/
def tokenize (s : String) : Except (List Char) (List Token) :=
  tokenizeFuel s.data.length 0 s.data

/-- Is the kind one of the four operator kinds (the membership tests
`in ["PLUS", "MINUS", "MULTIPLY", "DIVIDE"]` of src/tokenizer.py)? -/
def isOpK (k : TokKind) : Bool :=
  k = PLUS || k = MINUS || k = MULTIPLY || k = DIVIDE

/-- The loop of `LexicalAnalyzer.validate_tokens` (src/tokenizer.py,
lines 92-130), with the running state (`prev_type`, `paren_count`) made
explicit.  The final `paren_count != 0` and trailing-operator checks are
performed when the list is exhausted; `prev` then holds the type of the last
token, i.e. `tokens[-1][1]`. -/
def validateLoop (prev : Option TokKind) (count : ℤ) : List Token → Bool
  | [] =>
    (count == 0) &&
      (match prev with
       | some k => !isOpK k
       | none => true)
  | (_, k) :: rest =>
    let count' : ℤ := if k = LPAREN then count + 1
      else if k = RPAREN then count - 1 else count
    if k = RPAREN && count' < 0 then
      false
    else if (match prev with
             | some p =>
               (isOpK p && (isOpK k || k = RPAREN)) ||
               (p = NUMBER && k = NUMBER) ||
               (k = LPAREN && !(isOpK p || p = LPAREN))
             | none => false) then
      false
    else
      validateLoop (some k) count' rest

/-- `LexicalAnalyzer.validate_tokens` (src/tokenizer.py, lines 79-130). -/
def validateTokens (ts : List Token) : Bool :=
  match ts with
  | [] => false
  | _ => validateLoop none 0 ts

/-! ## The AST and Python float literals -/

/-- `ASTNode` (src/parser.py, lines 6-13).  The dataclass is a single record
with a `node_type` string and nullable children; the three shapes the parser
constructs and the evaluator consumes are `NUMBER` (leaf, float value),
`UNARY_OP` (operator string, `right` child) and `BINARY_OP` (operator string,
both children).  Operator strings are kept as strings so that the defensive
`Unknown operator` branch of the evaluator remains meaningful. -/
inductive AST where
  | number (value : ℚ)
  | unary (op : List Char) (right : AST)
  | binary (op : List Char) (left right : AST)
  deriving DecidableEq, Repr

/-- Value of a big-endian digit string, by the usual left fold.  Models the
integer part of Python's `float(<digits>)`. -/
def charsToNat (cs : List Char) : ℕ :=
  cs.foldl (fun a c => 10 * a + (c.toNat - 48)) 0

/-- The exponent marker of a Python float literal (`1e-05`, `1E3`). -/
def isExpChar (c : Char) : Bool := c == 'e' || c == 'E'

/-- Python `float()` on the mantissa `<digits>[.<digits>]` of an unsigned
numeric literal. -/
def pyMantissa (cs : List Char) : ℚ :=
  let ip := List.takeWhile Char.isDigit cs
  match List.dropWhile Char.isDigit cs with
  | '.' :: fp => (charsToNat ip : ℚ) + (charsToNat fp : ℚ) / 10 ^ fp.length
  | _ => (charsToNat ip : ℚ)

/-- Python `float()` on the exponent part after `e`/`E`: an optionally
signed digit string. -/
def pyExp (cs : List Char) : ℤ :=
  match cs with
  | '-' :: r => -(charsToNat r : ℤ)
  | '+' :: r => (charsToNat r : ℤ)
  | r => (charsToNat r : ℤ)

/-- Python `float()` on an unsigned numeric literal
`<digits>[.<digits>][(e|E)[+|-]<digits>]` — both the plain decimals (the
only shape `tokenize` ever stores in a `NUMBER` token) and the scientific
forms that `str` itself produces. -/
def pyFloatNN (cs : List Char) : ℚ :=
  match List.dropWhile (fun c => !isExpChar c) cs with
  | _ :: ex =>
    pyMantissa (List.takeWhile (fun c => !isExpChar c) cs) * (10 : ℚ) ^ pyExp ex
  | [] => pyMantissa cs

/-- Python `float()` on a numeric literal with an optional sign, as used by
`SyntacticAnalyzer._factor` (`float(token[0])`). -/
def pyFloat (cs : List Char) : ℚ :=
  match cs with
  | '-' :: r => -(pyFloatNN r)
  | '+' :: r => pyFloatNN r
  | _ => pyFloatNN cs

/-! ## The recursive-descent parser

`SyntacticAnalyzer` (src/parser.py, lines 16-126).  The mutable
`current_token_index` cursor is modelled by having every production return the
list of not-yet-consumed tokens.  Note the faithful reproduction of the source
behaviour of `_factor` on a `NUMBER` token: the source builds the node from
`self.current_token()` and returns **without consuming it** (there is no
`self.consume()` in that branch, src/parser.py lines 111-112), so the token
stream is left untouched there. -/

/-- Error text used when fuel runs out; `parse` supplies enough fuel for this
never to occur. -/
def fuelErr : List Char := ['f','u','e','l']

/-- `SyntaxError("Unexpected end of expression")` (src/parser.py, line 50
and line 109). -/
def unexpectedEndMsg : List Char := "Unexpected end of expression".data

/-- `SyntaxError("Expected <t>, got <k>")` raised by `consume` on a kind
mismatch (src/parser.py, line 54). -/
def expectedGotMsg (t k : TokKind) : List Char :=
  "Expected ".data ++ kindName t ++ ", got ".data ++ kindName k

/-- `SyntaxError("Unexpected token: <v>")` (src/parser.py, line 126). -/
def unexpectedTokMsg (v : List Char) : List Char :=
  "Unexpected token: ".data ++ v

mutual

/-- `SyntacticAnalyzer._expression` (src/parser.py, lines 79-88). -/
def parseExpression : ℕ → List Token → Except (List Char) (AST × List Token)
  | 0, _ => Except.error fuelErr
  | f + 1, ts => do
    let (node, rest) ← parseTerm f ts
    parseExpressionLoop f node rest

/-- The `while` loop of `_expression`: fold further `('+'|'-') term` pairs
into a left-leaning tree. -/
def parseExpressionLoop :
    ℕ → AST → List Token → Except (List Char) (AST × List Token)
  | 0, _, _ => Except.error fuelErr
  | f + 1, node, ts =>
    match ts with
    | (v, k) :: tail =>
      if k = PLUS || k = MINUS then do
        let (right, rest) ← parseTerm f tail
        parseExpressionLoop f (AST.binary v node right) rest
      else
        Except.ok (node, ts)
    | [] => Except.ok (node, ts)

/-- `SyntacticAnalyzer._term` (src/parser.py, lines 90-102). -/
def parseTerm : ℕ → List Token → Except (List Char) (AST × List Token)
  | 0, _ => Except.error fuelErr
  | f + 1, ts => do
    let (node, rest) ← parseFactor f ts
    parseTermLoop f node rest

/-- The `while` loop of `_term`. -/
def parseTermLoop :
    ℕ → AST → List Token → Except (List Char) (AST × List Token)
  | 0, _, _ => Except.error fuelErr
  | f + 1, node, ts =>
    match ts with
    | (v, k) :: tail =>
      if k = MULTIPLY || k = DIVIDE then do
        let (right, rest) ← parseFactor f tail
        parseTermLoop f (AST.binary v node right) rest
      else
        Except.ok (node, ts)
    | [] => Except.ok (node, ts)

/-- `SyntacticAnalyzer._factor` (src/parser.py, lines 104-126).  The `NUMBER`
branch returns the node **without consuming the token** (the source has no
`self.consume()` there); the `LPAREN` branch consumes `(`, parses an
expression and then requires `)` via `consume("RPAREN")`; a sign starts a
unary node; anything else raises `SyntaxError("Unexpected token: <v>")`. -/
def parseFactor : ℕ → List Token → Except (List Char) (AST × List Token)
  | 0, _ => Except.error fuelErr
  | f + 1, ts =>
    match ts with
    | [] => Except.error unexpectedEndMsg
    | (v, k) :: tail =>
      match k with
      | NUMBER => Except.ok (AST.number (pyFloat v), (v, k) :: tail)
      | LPAREN => do
        let (node, rest) ← parseExpression f tail
        match rest with
        | (_, RPAREN) :: tail2 => Except.ok (node, tail2)
        | (_, k2) :: _ => Except.error (expectedGotMsg RPAREN k2)
        | [] => Except.error unexpectedEndMsg
      | PLUS => do
        let (operand, rest) ← parseFactor f tail
        Except.ok (AST.unary v operand, rest)
      | MINUS => do
        let (operand, rest) ← parseFactor f tail
        Except.ok (AST.unary v operand, rest)
      | _ => Except.error (unexpectedTokMsg v)

end

/-- `SyntacticAnalyzer.parse` (src/parser.py, lines 65-77): reset the cursor
and parse one `_expression`; leftover tokens are not checked.  Every call in
the mutual recursion above consumes one unit of fuel and either shrinks the
token list or descends one grammar level, so `3 * length + 3` units always
suffice. -/
def parse (ts : List Token) : Except (List Char) AST :=
  (parseExpression (3 * ts.length + 3) ts).map Prod.fst

/-! ## Evaluation -/

/-- The `ValueError("Division by zero")` message (src/parser.py, line 170). -/
def divZeroMsg : List Char := "Division by zero".data

/-- The `ValueError("Unknown operator: <op>")` message (src/parser.py,
line 173). -/
def unknownOpMsg (op : List Char) : List Char :=
  "Unknown operator: ".data ++ op

/-- `SyntacticAnalyzer._evaluate_node` (src/parser.py, lines 146-178):
post-order recursive evaluation; unary `+` is the identity and any other
unary operator negates (the source's `else: # '-'`); division checks
`right_val == 0` and raises `ValueError("Division by zero")`; an operator
string outside `+ - * /` raises `ValueError("Unknown operator: <op>")`. -/
def evaluateNode : AST → Except (List Char) ℚ
  | AST.number v => Except.ok v
  | AST.unary op r => do
    let operand ← evaluateNode r
    if op = ['+'] then Except.ok operand else Except.ok (-operand)
  | AST.binary op l r => do
    let leftVal ← evaluateNode l
    let rightVal ← evaluateNode r
    if op = ['+'] then Except.ok (leftVal + rightVal)
    else if op = ['-'] then Except.ok (leftVal - rightVal)
    else if op = ['*'] then Except.ok (leftVal * rightVal)
    else if op = ['/'] then
      if rightVal = 0 then Except.error divZeroMsg
      else Except.ok (leftVal / rightVal)
    else
      Except.error (unknownOpMsg op)

/-! ## Rendering floats the way Python's `str` does

`_node_to_string` prints a leaf as `str(node.value)`.  In the exact-rational
model of `float64`, `str` of a float value renders its shortest decimal
expansion.  CPython (`Python/pystrtod.c`, `format_float_short`) prints the
shortest digits in fixed-point form while the decimal exponent of the
leading significant digit lies in `[-4, 16)` — an integer value prints as
`<int>.0`, and a non-integer decimal prints with the least number of
fractional digits — and switches to scientific notation `d[.ddd…]e±EE`
(explicit exponent sign, at least two exponent digits) outside that window:
`str(0.00001)` is `'1e-05'` and `str(1e16)` is `'1e+16'`. -/

/-- The character for a decimal digit `d < 10`. -/
def digitChar (d : ℕ) : Char := Char.ofNat (48 + d)

/-- Little-endian base-10 digits of a natural number, with fuel (`n` itself is
always enough fuel). -/
def natDigitsFuel : ℕ → ℕ → List ℕ
  | 0, _ => []
  | f + 1, n => if n = 0 then [] else n % 10 :: natDigitsFuel f (n / 10)

/-- Big-endian decimal digit characters of a natural number (`"0"` for 0). -/
def natToChars (n : ℕ) : List Char :=
  if n = 0 then ['0'] else ((natDigitsFuel n n).map digitChar).reverse

/-- First `k ≥ start` with `(q * 10 ^ k).den = 1`, searched with fuel; returns
the fallback end of the search range when no such `k` is found. -/
def firstK (q : ℚ) : ℕ → ℕ → ℕ
  | k, 0 => k
  | k, fuel + 1 => if (q * 10 ^ k).den = 1 then k else firstK q (k + 1) fuel

/-- Number of fractional digits of a decimal rational: the least `k` with
`q * 10 ^ k` integral.  For a decimal `q` the search succeeds within `q.den`
steps. -/
def kOf (q : ℚ) : ℕ := firstK q 0 q.den

/-- Left-pad a digit string with zeros to width `k`. -/
def padZeros (k : ℕ) (cs : List Char) : List Char :=
  List.replicate (k - cs.length) '0' ++ cs

/-- The number of fractional digits `str` prints for a nonnegative decimal:
`0` for an integer, else the least `k` with `q * 10 ^ k` integral. -/
def fracDigits (q : ℚ) : ℕ := if q.den = 1 then 0 else kOf q

/-- The significant digits of a nonnegative decimal as an integer: the value
scaled by its fractional digit count. -/
def sigDigitsInt (q : ℚ) : ℕ := (q * 10 ^ fracDigits q).num.toNat

/-- Decimal exponent of the leading significant digit of a nonnegative
decimal: `q = d.ddd… × 10 ^ decExponent q`. -/
def decExponent (q : ℚ) : ℤ :=
  ((natToChars (sigDigitsInt q)).length : ℤ) - 1 - fracDigits q

/-- CPython's `str` of a float uses scientific notation exactly when the
decimal exponent leaves the window `[-4, 16)` (`Python/pystrtod.c`,
`format_float_short`). -/
def usesScientific (q : ℚ) : Bool :=
  decide (decExponent q < -4) || decide (16 ≤ decExponent q)

/-- Fixed-point `str(<nonnegative float>)`: `<int>.0` for integers, else
`<int>.<frac>` with the least number of fractional digits. -/
def renderFixed (q : ℚ) : List Char :=
  if q.den = 1 then natToChars q.num.toNat ++ ['.', '0']
  else
    let k := kOf q
    let m := (q * 10 ^ k).num.toNat
    natToChars (m / 10 ^ k) ++ '.' :: padZeros k (natToChars (m % 10 ^ k))

/-- Number of trailing zero digits of a natural number, with fuel (`n`
itself is always enough fuel). -/
def trailingZeros : ℕ → ℕ → ℕ
  | 0, _ => 0
  | f + 1, n => if n ≠ 0 ∧ n % 10 = 0 then trailingZeros f (n / 10) + 1 else 0

/-- The significant digits of a positive decimal with the trailing zeros
stripped off (the shortest mantissa digits). -/
def sciSig (q : ℚ) : ℕ :=
  sigDigitsInt q / 10 ^ trailingZeros (sigDigitsInt q) (sigDigitsInt q)

/-- The mantissa string of scientific notation built from a digit string:
a bare digit when there is only one, else `d.ddd…`. -/
def sciMantissa (ds : List Char) : List Char :=
  match ds with
  | [d] => [d]
  | d :: rest => d :: '.' :: rest
  | [] => ['0']

/-- Scientific `str(<positive float>)`: shortest mantissa followed by `e`,
an explicit exponent sign and an at-least-two-digit exponent. -/
def renderSci (q : ℚ) : List Char :=
  sciMantissa (natToChars (sciSig q)) ++
    'e' :: (if decExponent q < 0 then '-' else '+') ::
      padZeros 2 (natToChars (decExponent q).natAbs)

/-- `str(<nonnegative float>)`: fixed point while the decimal exponent lies
in `[-4, 16)`, scientific notation outside that window. -/
def renderFloatNN (q : ℚ) : List Char :=
  if usesScientific q then renderSci q else renderFixed q

/-- `str(<float>)`, signs included. -/
def renderFloat (q : ℚ) : List Char :=
  if q < 0 then '-' :: renderFloatNN (-q) else renderFloatNN q

/-- `SyntacticAnalyzer._node_to_string` (src/parser.py, lines 258-272):
a `NUMBER` leaf prints as `str(value)`, a `UNARY_OP` as the operator glued to
its operand, and a `BINARY_OP` **always** as `(<left> <op> <right>)` with
single spaces around the operator. -/
def nodeToString : AST → List Char
  | AST.number v => renderFloat v
  | AST.unary op r => op ++ nodeToString r
  | AST.binary op l r =>
    '(' :: (nodeToString l ++ ' ' :: (op ++ ' ' :: (nodeToString r ++ [')'])))

/-! ## The step solver of the source (`solve_step_by_step`) -/

/-- Round to the nearest integer, ties to even — the rounding of Python's
fixed-point formatting. -/
def roundHalfEven (x : ℚ) : ℤ :=
  let f := x.floor
  let r := x - (f : ℚ)
  if r < 1 / 2 then f
  else if 1 / 2 < r then f + 1
  else if f % 2 = 0 then f else f + 1

/-- Python `f"{q:.1f}"`: the value rounded (half-to-even) to one decimal
place. -/
def format1f (q : ℚ) : List Char :=
  let n := roundHalfEven (q * 10)
  (if n < 0 then ['-'] else []) ++
    natToChars (n.natAbs / 10) ++ '.' :: natToChars (n.natAbs % 10)

/-- `SyntacticAnalyzer._solve_with_steps` (src/parser.py, lines 197-241):
like `_evaluate_node` but appending one formatted line per collapsed
operation to `self.steps` (threaded here as an explicit accumulator).
Unary steps use plain `str` formatting; binary steps format all three
numbers with `:.1f`. -/
def solveWithSteps :
    AST → List (List Char) → Except (List Char) (ℚ × List (List Char))
  | AST.number v, steps => Except.ok (v, steps)
  | AST.unary op r, steps => do
    let (operand, steps1) ← solveWithSteps r steps
    let result := if op = ['+'] then operand else -operand
    Except.ok (result,
      steps1 ++ [op ++ renderFloat operand ++ ' ' :: '=' :: ' ' :: renderFloat result])
  | AST.binary op l r, steps => do
    let (leftVal, steps1) ← solveWithSteps l steps
    let (rightVal, steps2) ← solveWithSteps r steps1
    let ls := format1f leftVal
    let rs := format1f rightVal
    if op = ['+'] then
      Except.ok (leftVal + rightVal, steps2 ++
        [ls ++ ' ' :: '+' :: ' ' :: rs ++ ' ' :: '=' :: ' ' :: format1f (leftVal + rightVal)])
    else if op = ['-'] then
      Except.ok (leftVal - rightVal, steps2 ++
        [ls ++ ' ' :: '-' :: ' ' :: rs ++ ' ' :: '=' :: ' ' :: format1f (leftVal - rightVal)])
    else if op = ['*'] then
      Except.ok (leftVal * rightVal, steps2 ++
        [ls ++ ' ' :: '*' :: ' ' :: rs ++ ' ' :: '=' :: ' ' :: format1f (leftVal * rightVal)])
    else if op = ['/'] then
      if rightVal = 0 then Except.error divZeroMsg
      else
        Except.ok (leftVal / rightVal, steps2 ++
          [ls ++ ' ' :: '/' :: ' ' :: rs ++ ' ' :: '=' :: ' ' :: format1f (leftVal / rightVal)])
    else
      Except.error (unknownOpMsg op)

/-- `SyntacticAnalyzer.solve_step_by_step` (src/parser.py, lines 180-195):
reset `self.steps`, run `_solve_with_steps`, return the accumulated lines. -/
def solveStepByStep (t : AST) : Except (List Char) (List (List Char)) :=
  (solveWithSteps t []).map Prod.snd

/-! ## Instrumented (frame-tracking) variants

`_evaluate_node` and `_solve_with_steps` contain no assignment to any field
of a node (`node.value`, `node.left`, `node.right`, `node.node_type` are only
read).  To make this observable inside the pure embedding, the instrumented
variants below additionally return the visited node, rebuilt from the fields
the source left behind: every recursive call threads the child through, and
the parent is reassembled from the returned children, so any field update in
the source would surface as a changed return value. -/

/-- `_evaluate_node` with the visited node threaded through. -/
def evaluateNodeT : AST → Except (List Char) (ℚ × AST)
  | AST.number v => Except.ok (v, AST.number v)
  | AST.unary op r => do
    let (operand, r') ← evaluateNodeT r
    if op = ['+'] then Except.ok (operand, AST.unary op r')
    else Except.ok (-operand, AST.unary op r')
  | AST.binary op l r => do
    let (leftVal, l') ← evaluateNodeT l
    let (rightVal, r') ← evaluateNodeT r
    if op = ['+'] then Except.ok (leftVal + rightVal, AST.binary op l' r')
    else if op = ['-'] then Except.ok (leftVal - rightVal, AST.binary op l' r')
    else if op = ['*'] then Except.ok (leftVal * rightVal, AST.binary op l' r')
    else if op = ['/'] then
      if rightVal = 0 then Except.error divZeroMsg
      else Except.ok (leftVal / rightVal, AST.binary op l' r')
    else Except.error (unknownOpMsg op)

/-- `_solve_with_steps` with the visited node threaded through (step strings
as in `solveWithSteps`). -/
def solveWithStepsT :
    AST → List (List Char) → Except (List Char) (ℚ × AST × List (List Char))
  | AST.number v, steps => Except.ok (v, AST.number v, steps)
  | AST.unary op r, steps => do
    let (operand, r', steps1) ← solveWithStepsT r steps
    let result := if op = ['+'] then operand else -operand
    Except.ok (result, AST.unary op r',
      steps1 ++ [op ++ renderFloat operand ++ ' ' :: '=' :: ' ' :: renderFloat result])
  | AST.binary op l r, steps => do
    let (leftVal, l', steps1) ← solveWithStepsT l steps
    let (rightVal, r', steps2) ← solveWithStepsT r steps1
    let ls := format1f leftVal
    let rs := format1f rightVal
    if op = ['+'] then
      Except.ok (leftVal + rightVal, AST.binary op l' r', steps2 ++
        [ls ++ ' ' :: '+' :: ' ' :: rs ++ ' ' :: '=' :: ' ' :: format1f (leftVal + rightVal)])
    else if op = ['-'] then
      Except.ok (leftVal - rightVal, AST.binary op l' r', steps2 ++
        [ls ++ ' ' :: '-' :: ' ' :: rs ++ ' ' :: '=' :: ' ' :: format1f (leftVal - rightVal)])
    else if op = ['*'] then
      Except.ok (leftVal * rightVal, AST.binary op l' r', steps2 ++
        [ls ++ ' ' :: '*' :: ' ' :: rs ++ ' ' :: '=' :: ' ' :: format1f (leftVal * rightVal)])
    else if op = ['/'] then
      if rightVal = 0 then Except.error divZeroMsg
      else
        Except.ok (leftVal / rightVal, AST.binary op l' r', steps2 ++
          [ls ++ ' ' :: '/' :: ' ' :: rs ++ ' ' :: '=' :: ' ' :: format1f (leftVal / rightVal)])
    else
      Except.error (unknownOpMsg op)

/-! ## The substitution-based stepwise solver (spec contract) -/

/-- One binary-operator application with the evaluator's semantics (division
by exactly zero fails, an operator outside `+ - * /` fails). -/
def applyBin (op : List Char) (a b : ℚ) : Except (List Char) ℚ :=
  if op = ['+'] then Except.ok (a + b)
  else if op = ['-'] then Except.ok (a - b)
  else if op = ['*'] then Except.ok (a * b)
  else if op = ['/'] then
    if b = 0 then Except.error divZeroMsg else Except.ok (a / b)
  else Except.error (unknownOpMsg op)

/-- Modelled from the spec: `solve_by_substitution` is invoked by the
pipeline (src/app.py line 46, src/test_pipeline.py lines 100 and 167) but no
method of that name exists in src/parser.py, so its body is modelled from
spec §4.3: traverse the tree post-order and, each time a `UnaryOp`/`BinaryOp`
subtree has all children reduced, evaluate it and replace it by a `Number`
leaf; after each collapse take the string of the whole partially-reduced
root.  `ctx` is the one-hole context embedding the current subtree into the
root, so `ctx (AST.number v)` is the root snapshot after collapsing the
current subtree to `v`.  Returns the final value together with the snapshot
trees in collapse order. -/
def solveIn (ctx : AST → AST) : AST → Except (List Char) (ℚ × List AST)
  | AST.number v => Except.ok (v, [])
  | AST.unary op r => do
    let (rv, snaps) ← solveIn (fun x => ctx (AST.unary op x)) r
    let v := if op = ['+'] then rv else -rv
    Except.ok (v, snaps ++ [ctx (AST.number v)])
  | AST.binary op l r => do
    let (lv, s1) ← solveIn (fun x => ctx (AST.binary op x r)) l
    let (rv, s2) ← solveIn (fun x => ctx (AST.binary op (AST.number lv) x)) r
    let v ← applyBin op lv rv
    Except.ok (v, s1 ++ s2 ++ [ctx (AST.number v)])

/-- Collapse adjacent duplicates, keeping the first of each run. -/
def dedupAdjGo (prev : List Char) : List (List Char) → List (List Char)
  | [] => []
  | b :: rest => if b = prev then dedupAdjGo prev rest else b :: dedupAdjGo b rest

/-- Adjacent-duplicate suppression over a snapshot list. -/
def dedupAdj : List (List Char) → List (List Char)
  | [] => []
  | a :: rest => a :: dedupAdjGo a rest

/-- Modelled from the spec: the `solveBySubstitution(ast)` contract of
spec §4.3 / §6 (the method missing from src/parser.py).  The sequence opens
with `toString` of the original parse, then appends the root snapshot after
each post-order collapse, suppressing adjacent duplicates. -/
def solveBySubstitution (t : AST) : Except (List Char) (List (List Char)) := do
  let (_, snaps) ← solveIn id t
  Except.ok (dedupAdj (nodeToString t :: snaps.map nodeToString))

/-! ## The pipeline (src/app.py) -/

/-- Stage-tagged pipeline errors: `lex` is the
`"Análise Léxica falhou: ..."` wrapper, `syn` the
`"Análise Sintática falhou: ..."` wrapper (src/app.py lines 33-50). -/
inductive PipeError where
  | lex (msg : List Char)
  | syn (msg : List Char)
  deriving DecidableEq, Repr

/-- The successful pipeline payload (steps, final result, normalized
expression string). -/
structure PipeOutput where
  steps : List (List Char)
  finalResult : ℚ
  normalized : List Char
  deriving DecidableEq, Repr

/-- `ValueError("Sequência inválida de tokens na expressão")`
(src/app.py line 37). -/
def invalidSeqMsg : List Char :=
  "Sequência inválida de tokens na expressão".data

/-- `process_raw_expression_pipeline` (src/app.py lines 27-60) from the
already-corrected expression onwards (the NLP correction stage is outside the
core).  The second component records whether the syntactic stage — and hence
`parser.parse()` — was ever entered: a failed tokenization or a `false`
validation short-circuits with a lexical-stage error before any parsing.
Inside the syntactic stage the pipeline parses, evaluates, runs the stepwise
solver and prints the normalized form. -/
def pipelineTrace (corrected : String) : Except PipeError PipeOutput × Bool :=
  match tokenize corrected with
  | Except.error e => (Except.error (PipeError.lex e), false)
  | Except.ok ts =>
    if validateTokens ts = false then
      (Except.error (PipeError.lex invalidSeqMsg), false)
    else
      (match parse ts with
       | Except.error e => (Except.error (PipeError.syn e))
       | Except.ok ast =>
         match evaluateNode ast with
         | Except.error e => (Except.error (PipeError.syn e))
         | Except.ok v =>
           match solveBySubstitution ast with
           | Except.error e => (Except.error (PipeError.syn e))
           | Except.ok steps =>
             Except.ok ⟨steps, v, nodeToString ast⟩, true)

/-! ## Specification-side definitions

These follow the wording of the claims (not the source); each is compared
with the corresponding source embedding by a theorem below. -/

/-- The claim-C5 whitespace stripping: `s` with every whitespace character
removed. -/
def stripWS (s : String) : String :=
  ⟨s.data.filter (fun c => !isPySpace c)⟩

/-- Claim C6: the running parenthesis depth after one token kind. -/
def depthStep (c : ℤ) (k : TokKind) : ℤ :=
  if k = LPAREN then c + 1 else if k = RPAREN then c - 1 else c

/-- Claim C6: the running depth never goes negative. -/
def depthsOkFrom (c : ℤ) : List TokKind → Bool
  | [] => true
  | k :: rest => (0 ≤ depthStep c k) && depthsOkFrom (depthStep c k) rest

/-- Claim C6: the final parenthesis depth. -/
def finalDepth (c : ℤ) : List TokKind → ℤ
  | [] => c
  | k :: rest => finalDepth (depthStep c k) rest

/-- Claim C6: the forbidden adjacencies — two consecutive operators, an
operator immediately followed by `RPAREN`, two consecutive numbers, and an
`LPAREN` whose predecessor is neither an operator nor an `LPAREN`. -/
def adjViol (a b : TokKind) : Bool :=
  (isOpK a && (isOpK b || b = RPAREN)) ||
  (a = NUMBER && b = NUMBER) ||
  (b = LPAREN && !(isOpK a || a = LPAREN))

/-- Claim C6: no adjacent pair violates the adjacency rules. -/
def pairsOk : List TokKind → Bool
  | [] => true
  | [_] => true
  | a :: b :: rest => !adjViol a b && pairsOk (b :: rest)

/-- Claim C6: the finite-state adjacency predicate over token kinds exactly
as the claim enumerates it — nonempty, depth never negative and zero at the
end, no forbidden adjacency, and no final operator. -/
def specValidate (ks : List TokKind) : Bool :=
  !ks.isEmpty && depthsOkFrom 0 ks && (finalDepth 0 ks == 0) &&
    pairsOk ks && !isOpK (ks.getLastD NUMBER)

/-- All binary operator strings of the tree are among `+ - * /` (the
defensive `Unknown operator` branch is unreachable).  Unary operators are
unconstrained because the evaluator treats any non-`+` unary as negation. -/
def opsKnown : AST → Bool
  | AST.number _ => true
  | AST.unary _ r => opsKnown r
  | AST.binary op l r =>
    (op = ['+'] || op = ['-'] || op = ['*'] || op = ['/']) &&
      opsKnown l && opsKnown r

/-- Claim C7: some division subterm's right operand evaluates to exactly 0. -/
def divZeroIn : AST → Bool
  | AST.number _ => false
  | AST.unary _ r => divZeroIn r
  | AST.binary op l r =>
    divZeroIn l || divZeroIn r ||
      (op = ['/'] && decide (evaluateNode r = Except.ok 0))

/-- Claim C7: every division subterm's right operand evaluates successfully
to a nonzero value. -/
def divisorsEvalNonzero : AST → Bool
  | AST.number _ => true
  | AST.unary _ r => divisorsEvalNonzero r
  | AST.binary op l r =>
    divisorsEvalNonzero l && divisorsEvalNonzero r &&
      (!(op = ['/']) ||
        (match evaluateNode r with
         | Except.ok v => decide (v ≠ 0)
         | Except.error _ => false))

/-- A rational is a (finite) decimal: some power of ten clears its
denominator.  Every value Python's `float()` produces from a numeric literal
is of this shape in the exact model. -/
def DecimalQ (q : ℚ) : Prop :=
  ∃ n : ℕ, (q * 10 ^ n).den = 1

/-- The ASTs the (token-dropping) parser can actually produce: a chain of
sign nodes over a single number leaf, with a nonnegative decimal value and
genuine sign strings. -/
inductive ChainOK : AST → Prop where
  | num (q : ℚ) : 0 ≤ q → DecimalQ q → ChainOK (AST.number q)
  | sgn (op : List Char) (t : AST) :
      (op = ['+'] ∨ op = ['-']) → ChainOK t → ChainOK (AST.unary op t)

/-- Relation between a token list accepted by `parseFactor`, the tree it
builds and the tokens it leaves: a (possibly empty) run of sign tokens
followed by a `NUMBER` token, which is left unconsumed. -/
inductive FactorOut : List Token → AST → List Token → Prop where
  | num (v : List Char) (tail : List Token) :
      FactorOut ((v, NUMBER) :: tail) (AST.number (pyFloat v))
        ((v, NUMBER) :: tail)
  | sgn (v : List Char) (k : TokKind) (ts : List Token) (t : AST)
      (rest : List Token) : (k = PLUS ∨ k = MINUS) → FactorOut ts t rest →
      FactorOut ((v, k) :: ts) (AST.unary v t) rest

/-- Shape invariant of the tokens `tokenize` emits: a `NUMBER` value starts
with a digit, and sign tokens carry exactly their sign character. -/
def tokOk : Token → Prop
  | (v, NUMBER) => ∃ c cs', v = c :: cs' ∧ c.isDigit = true
  | (v, PLUS) => v = ['+']
  | (v, MINUS) => v = ['-']
  | (_, _) => True

/-- The token kind of a sign character string. -/
def signKind (op : List Char) : TokKind :=
  if op = ['+'] then PLUS else MINUS

/-- The token list `tokenize` produces from a printed sign chain. -/
def chainToks : AST → List Token
  | AST.number q => [(renderFloatNN q, NUMBER)]
  | AST.unary op r => (op, signKind op) :: chainToks r
  | AST.binary _ _ _ => []

/-- The numeric leaf at the bottom of a sign chain. -/
def chainLeaf : AST → ℚ
  | AST.number q => q
  | AST.unary _ r => chainLeaf r
  | AST.binary _ _ _ => 0

/-! # Theorems -/

/-! ## Plumbing lemmas -/

theorem exMapOkIff {ε α β : Type} (g : α → β) (e : Except ε α) (y : β) :
    e.map g = Except.ok y ↔ ∃ z, e = Except.ok z ∧ y = g z := by
  cases e with
  | error e =>
    constructor
    · intro h; exact absurd h (by simp [Except.map])
    · rintro ⟨z, hz, _⟩; cases hz
  | ok z =>
    constructor
    · intro h
      refine ⟨z, rfl, ?_⟩
      simpa [Except.map] using h.symm
    · rintro ⟨z', hz, hy⟩
      cases hz
      simp [Except.map, hy]

@[simp] theorem exBindOk {ε α β : Type} (x : α) (g : α → Except ε β) :
    (Except.ok x >>= g) = g x := rfl

@[simp] theorem exBindErr {ε α β : Type} (e : ε) (g : α → Except ε β) :
    ((Except.error e : Except ε α) >>= g) = Except.error e := rfl

theorem memTakeWhile {p : Char → Bool} :
    ∀ {l : List Char} {a : Char}, a ∈ List.takeWhile p l → p a = true := by
  intro l
  induction l with
  | nil => intro a h; simp [List.takeWhile] at h
  | cons c rest ih =>
    intro a h
    by_cases hc : p c
    · rw [List.takeWhile_cons, if_pos hc] at h
      rcases List.mem_cons.mp h with rfl | h2
      · exact hc
      · exact ih h2
    · rw [List.takeWhile_cons, if_neg hc] at h
      simp at h

theorem filterAllTrue {p : Char → Bool} :
    ∀ {l : List Char}, (∀ a ∈ l, p a = true) → l.filter p = l := by
  intro l
  induction l with
  | nil => intro _; rfl
  | cons c rest ih =>
    intro h
    rw [List.filter_cons, if_pos (h c (List.mem_cons_self c rest))]
    rw [ih (fun a ha => h a (List.mem_cons_of_mem c ha))]

theorem filterAllFalse {p : Char → Bool} :
    ∀ {l : List Char}, (∀ a ∈ l, p a = false) → l.filter p = [] := by
  intro l
  induction l with
  | nil => intro _; rfl
  | cons c rest ih =>
    intro h
    rw [List.filter_cons]
    rw [if_neg (by simp [h c (List.mem_cons_self c rest)])]
    exact ih (fun a ha => h a (List.mem_cons_of_mem c ha))

theorem digitNotSpace {c : Char} (h : c.isDigit = true) : isPySpace c = false := by
  by_contra hs
  have hs' : isPySpace c = true := by
    cases hq : isPySpace c
    · exact absurd hq hs
    · rfl
  unfold isPySpace at hs'
  simp only [Bool.or_eq_true, decide_eq_true_eq] at hs'
  rcases hs' with ((((h1 | h1) | h1) | h1) | h1) | h1 <;> subst h1 <;> simp_all

/-! ## C5: whitespace handling of `tokenize` -/

/-- The concatenation of the emitted token texts is the input with all
whitespace removed: the scanner discards whitespace matches and copies every
other consumed character into a token. -/
theorem tokenValuesJoin :
    ∀ (f pos : ℕ) (cs : List Char) (ts : List Token),
      tokenizeFuel f pos cs = Except.ok ts →
      (ts.map Prod.fst).flatten = cs.filter (fun c => !isPySpace c) := by
  intro f
  induction f with
  | zero =>
    intro pos cs ts h
    cases cs with
    | nil =>
      simp only [tokenizeFuel] at h
      cases h
      simp
    | cons c rest => simp [tokenizeFuel] at h
  | succ f ih =>
    intro pos cs ts h
    cases cs with
    | nil =>
      simp only [tokenizeFuel] at h
      cases h
      simp
    | cons c rest =>
      unfold tokenizeFuel at h
      by_cases hd : c.isDigit
      · rw [if_pos hd] at h
        have hsplit := List.takeWhile_append_dropWhile (p := Char.isDigit)
          (l := c :: rest)
        have hds : ∀ a ∈ List.takeWhile Char.isDigit (c :: rest),
            (fun c => !isPySpace c) a = true := by
          intro a ha
          simp [digitNotSpace (memTakeWhile ha)]
        split at h
        · next d2 r2 heq =>
          by_cases hd2 : d2.isDigit
          · rw [if_pos hd2] at h
            rcases (exMapOkIff _ _ _).mp h with ⟨ts', hrec, hts⟩
            subst hts
            have hsplit2 := List.takeWhile_append_dropWhile (p := Char.isDigit)
              (l := d2 :: r2)
            have hfs : ∀ a ∈ List.takeWhile Char.isDigit (d2 :: r2),
                (fun c => !isPySpace c) a = true := by
              intro a ha
              simp [digitNotSpace (memTakeWhile ha)]
            calc ((( List.takeWhile Char.isDigit (c :: rest) ++
                    '.' :: List.takeWhile Char.isDigit (d2 :: r2), NUMBER) ::
                    ts').map Prod.fst).flatten
                = (List.takeWhile Char.isDigit (c :: rest) ++
                    '.' :: List.takeWhile Char.isDigit (d2 :: r2)) ++
                    (ts'.map Prod.fst).flatten := by simp
              _ = (List.takeWhile Char.isDigit (c :: rest) ++
                    '.' :: List.takeWhile Char.isDigit (d2 :: r2)) ++
                    (List.dropWhile Char.isDigit (d2 :: r2)).filter
                      (fun c => !isPySpace c) := by rw [ih _ _ _ hrec]
              _ = (c :: rest).filter (fun c => !isPySpace c) := by
                  conv_rhs => rw [← hsplit, heq]
                  rw [List.filter_append, filterAllTrue hds]
                  conv_rhs => rw [← hsplit2]
                  rw [List.filter_cons]
                  have : (fun c => !isPySpace c) '.' = true := by decide
                  rw [if_pos this, List.filter_append, filterAllTrue hfs]
                  simp
          · rw [if_neg hd2] at h
            rcases (exMapOkIff _ _ _).mp h with ⟨ts', hrec, hts⟩
            subst hts
            calc (((List.takeWhile Char.isDigit (c :: rest), NUMBER) ::
                    ts').map Prod.fst).flatten
                = List.takeWhile Char.isDigit (c :: rest) ++
                    (ts'.map Prod.fst).flatten := by simp
              _ = List.takeWhile Char.isDigit (c :: rest) ++
                    ('.' :: d2 :: r2).filter (fun c => !isPySpace c) := by
                  rw [ih _ _ _ hrec]
              _ = (c :: rest).filter (fun c => !isPySpace c) := by
                  conv_rhs => rw [← hsplit, heq]
                  rw [List.filter_append, filterAllTrue hds]
        · next r1 hnotdot =>
          rcases (exMapOkIff _ _ _).mp h with ⟨ts', hrec, hts⟩
          subst hts
          calc (((List.takeWhile Char.isDigit (c :: rest), NUMBER) ::
                  ts').map Prod.fst).flatten
              = List.takeWhile Char.isDigit (c :: rest) ++
                  (ts'.map Prod.fst).flatten := by simp
            _ = List.takeWhile Char.isDigit (c :: rest) ++
                  (List.dropWhile Char.isDigit (c :: rest)).filter
                    (fun c => !isPySpace c) := by rw [ih _ _ _ hrec]
            _ = (c :: rest).filter (fun c => !isPySpace c) := by
                conv_rhs => rw [← hsplit]
                rw [List.filter_append, filterAllTrue hds]
      · rw [if_neg hd] at h
        by_cases h1 : c = '+'
        · subst h1
          rw [if_pos rfl] at h
          rcases (exMapOkIff _ _ _).mp h with ⟨ts', hrec, hts⟩
          subst hts
          simp only [List.map_cons, List.flatten]
          rw [ih _ _ _ hrec, List.filter_cons]
          rw [if_pos (by decide)]; rfl
        · rw [if_neg h1] at h
          by_cases h2 : c = '-'
          · subst h2
            rw [if_pos rfl] at h
            rcases (exMapOkIff _ _ _).mp h with ⟨ts', hrec, hts⟩
            subst hts
            simp only [List.map_cons, List.flatten]
            rw [ih _ _ _ hrec, List.filter_cons]
            rw [if_pos (by decide)]; rfl
          · rw [if_neg h2] at h
            by_cases h3 : c = '*'
            · subst h3
              rw [if_pos rfl] at h
              rcases (exMapOkIff _ _ _).mp h with ⟨ts', hrec, hts⟩
              subst hts
              simp only [List.map_cons, List.flatten]
              rw [ih _ _ _ hrec, List.filter_cons]
              rw [if_pos (by decide)]; rfl
            · rw [if_neg h3] at h
              by_cases h4 : c = '/'
              · subst h4
                rw [if_pos rfl] at h
                rcases (exMapOkIff _ _ _).mp h with ⟨ts', hrec, hts⟩
                subst hts
                simp only [List.map_cons, List.flatten]
                rw [ih _ _ _ hrec, List.filter_cons]
                rw [if_pos (by decide)]; rfl
              · rw [if_neg h4] at h
                by_cases h5 : c = '('
                · subst h5
                  rw [if_pos rfl] at h
                  rcases (exMapOkIff _ _ _).mp h with ⟨ts', hrec, hts⟩
                  subst hts
                  simp only [List.map_cons, List.flatten]
                  rw [ih _ _ _ hrec, List.filter_cons]
                  rw [if_pos (by decide)]; rfl
                · rw [if_neg h5] at h
                  by_cases h6 : c = ')'
                  · subst h6
                    rw [if_pos rfl] at h
                    rcases (exMapOkIff _ _ _).mp h with ⟨ts', hrec, hts⟩
                    subst hts
                    simp only [List.map_cons, List.flatten]
                    rw [ih _ _ _ hrec, List.filter_cons]
                    rw [if_pos (by decide)]; rfl
                  · rw [if_neg h6] at h
                    by_cases h7 : isPySpace c
                    · rw [if_pos h7] at h
                      have hws : ∀ a ∈ List.takeWhile isPySpace (c :: rest),
                          (fun c => !isPySpace c) a = false := by
                        intro a ha
                        simp [memTakeWhile ha]
                      rw [ih _ _ _ h]
                      have hsplit := List.takeWhile_append_dropWhile
                        (p := isPySpace) (l := c :: rest)
                      conv_rhs => rw [← hsplit]
                      rw [List.filter_append, filterAllFalse hws]
                      simp
                    · rw [if_neg h7] at h
                      cases h

/-- C1 (code-bug evidence): evaluating the pipeline at the claim's own
examples.  The `NUMBER` branch of `_factor` never consumes its token, so
`_expression` never sees the following operator: the tokens of `"2+3*4"`
parse to the bare leaf `2.0` and evaluate to `2`, not `14`, and the tokens of
`"8-4/2+1"` evaluate to `8`, not `7` — contradicting the repository's own
tests (src/test_pipeline.py, "Should be 14.0" / "Should be 7.0"). -/
theorem claim1_number_token_never_consumed :
    (tokenize "2+3*4").map (fun ts => (parse ts).map evaluateNode) =
      Except.ok (Except.ok (Except.ok 2)) ∧
    (tokenize "8-4/2+1").map (fun ts => (parse ts).map evaluateNode) =
      Except.ok (Except.ok (Except.ok 8)) ∧
    (tokenize "2+3*4").map validateTokens = Except.ok true :=
  ⟨by decide, by decide, by decide⟩

/-- C4 counterexample: `_node_to_string` prints the AST of `2+3*4` as
`"(2.0 + (3.0 * 4.0))"` — every `BINARY_OP` node is wrapped in parentheses,
not only lower-precedence children, so the claimed parenthesis-free print is
wrong. -/
theorem claim4_counterexample :
    nodeToString (AST.binary ['+'] (AST.number 2)
        (AST.binary ['*'] (AST.number 3) (AST.number 4))) =
      "(2.0 + (3.0 * 4.0))".data ∧
    nodeToString (AST.binary ['+'] (AST.number 2)
        (AST.binary ['*'] (AST.number 3) (AST.number 4))) ≠
      "2.0 + 3.0 * 4.0".data :=
  ⟨by decide, by decide⟩

/-- C4 (amended): `toString` prints **every** `BinaryOp` node as
`(left op right)` — one space around the operator and parentheses around the
whole node, unconditionally, for all operators and all children. -/
theorem claim4_amended_always_parenthesized (op : List Char) (l r : AST) :
    nodeToString (AST.binary op l r) =
      ['('] ++ nodeToString l ++ [' '] ++ op ++ [' '] ++ nodeToString r ++ [')'] := by
  simp [nodeToString]

/-- C5 counterexample: tokenization is **not** invariant under removing
whitespace first — `"1 2"` yields two `NUMBER` tokens while its
whitespace-stripped form `"12"` yields one, so whitespace does separate
tokens. -/
theorem claim5_counterexample :
    tokenize "1 2" ≠ tokenize (stripWS "1 2") ∧
    tokenize "1 2" = Except.ok [(['1'], NUMBER), (['2'], NUMBER)] ∧
    tokenize (stripWS "1 2") = Except.ok [(['1', '2'], NUMBER)] :=
  ⟨by decide, by decide, by decide⟩

/-- C5 (amended): `tokenize` discards whitespace rather than emitting it —
the concatenation of the emitted token texts is exactly the input with every
whitespace character removed — but whitespace is stripped during scanning,
not beforehand, so it still separates adjacent tokens. -/
theorem claim5_amended_whitespace_discarded (s : String) (ts : List Token)
    (h : tokenize s = Except.ok ts) :
    (ts.map Prod.fst).flatten = (stripWS s).data := by
  have := tokenValuesJoin s.data.length 0 s.data ts h
  simpa [stripWS] using this

/-- C5 witness: the amended statement at `"3.14 * 2"`. -/
theorem claim5_witness :
    tokenize "3.14 * 2" = Except.ok
      [(['3', '.', '1', '4'], NUMBER), (['*'], MULTIPLY), (['2'], NUMBER)] ∧
    ([(['3', '.', '1', '4'], NUMBER), (['*'], MULTIPLY),
        (['2'], NUMBER)].map (Prod.fst (β := TokKind))).flatten =
      (stripWS "3.14 * 2").data :=
  ⟨by decide, claim5_amended_whitespace_discarded "3.14 * 2" _ (by decide)⟩

/-- C8: a `false` validation short-circuits the pipeline inside the lexical
stage — the pipeline returns the wrapped
`ValueError("Sequência inválida de tokens na expressão")` and the syntactic
stage (and with it `parser.parse()`) is never entered. -/
theorem claim8_validation_short_circuits (s : String) (ts : List Token)
    (h1 : tokenize s = Except.ok ts) (h2 : validateTokens ts = false) :
    pipelineTrace s = (Except.error (PipeError.lex invalidSeqMsg), false) := by
  unfold pipelineTrace
  rw [h1]
  simp [h2]

/-- C8 witness: the corrected input `"1+"` tokenizes, fails validation, and
the pipeline rejects it without parsing. -/
theorem claim8_witness :
    tokenize "1+" = Except.ok [(['1'], NUMBER), (['+'], PLUS)] ∧
    validateTokens [(['1'], NUMBER), (['+'], PLUS)] = false ∧
    pipelineTrace "1+" = (Except.error (PipeError.lex invalidSeqMsg), false) :=
  ⟨by decide, by decide,
    claim8_validation_short_circuits "1+" [(['1'], NUMBER), (['+'], PLUS)]
      (by decide) (by decide)⟩

/-- C10: passing `validate_tokens` does not guarantee parseability — the two
tokens of `"()"` validate to `true`, yet `parse` raises
`SyntaxError("Unexpected token: )")` (the empty parenthesis pair reaches
`_factor` on `RPAREN`). -/
theorem claim10_validated_but_unparseable :
    tokenize "()" = Except.ok [(['('], LPAREN), ([')'], RPAREN)] ∧
    validateTokens [(['('], LPAREN), ([')'], RPAREN)] = true ∧
    parse [(['('], LPAREN), ([')'], RPAREN)] =
      Except.error (unexpectedTokMsg [')']) :=
  ⟨by decide, by decide, by decide⟩

/-! ## C6: the validator is exactly the claimed adjacency automaton -/

/-- The validator loop, related to the claim's rule list.  The accumulator
`c` is the depth so far and `a` the previous token's kind; the loop equals
the conjunction of the remaining depth checks, the zero final depth, the
adjacency checks over `a` followed by the remaining kinds, and the
trailing-operator check. -/
theorem validateLoopSpec :
    ∀ (ts : List Token) (a : TokKind) (c : ℤ), 0 ≤ c →
      validateLoop (some a) c ts =
        (depthsOkFrom c (ts.map Prod.snd) &&
          ((finalDepth c (ts.map Prod.snd)) == 0) &&
          pairsOk (a :: ts.map Prod.snd) &&
          !isOpK ((ts.map Prod.snd).getLastD a)) := by
  intro ts
  induction ts with
  | nil =>
    intro a c hc
    simp [validateLoop, depthsOkFrom, finalDepth, pairsOk]
  | cons hd rest ih =>
    obtain ⟨v, k⟩ := hd
    intro a c hc
    simp only [validateLoop, List.map_cons, depthsOkFrom, finalDepth, pairsOk,
      List.getLastD_cons]
    rw [show (if k = LPAREN then c + 1 else if k = RPAREN then c - 1 else c) =
      depthStep c k from rfl]
    simp only [adjViol]
    by_cases hneg : (k = RPAREN && decide (depthStep c k < 0)) = true
    · rcases Bool.and_eq_true_iff.mp hneg with ⟨hk, hlt⟩
      have hlt' : depthStep c k < 0 := of_decide_eq_true hlt
      rw [if_pos hneg]
      have : ¬ (0 ≤ depthStep c k) := by omega
      simp [this]
    · rw [if_neg hneg]
      have hge : 0 ≤ depthStep c k := by
        by_cases hk : k = RPAREN
        · subst hk
          simp only [Bool.and_eq_true_iff, not_and] at hneg
          have := hneg (by simp)
          simp only [decide_eq_true_eq] at this
          omega
        · simp only [depthStep]
          rw [if_neg hk]
          split <;> omega
      by_cases hadj : (isOpK a && (isOpK k || decide (k = RPAREN)) ||
          decide (a = NUMBER) && decide (k = NUMBER) ||
          decide (k = LPAREN) && !(isOpK a || decide (a = LPAREN))) = true
      · rw [if_pos hadj]
        simp only [hadj]
        simp
      · have hadjf : (isOpK a && (isOpK k || decide (k = RPAREN)) ||
            decide (a = NUMBER) && decide (k = NUMBER) ||
            decide (k = LPAREN) && !(isOpK a || decide (a = LPAREN))) = false := by
          cases hq : (isOpK a && (isOpK k || decide (k = RPAREN)) ||
              decide (a = NUMBER) && decide (k = NUMBER) ||
              decide (k = LPAREN) && !(isOpK a || decide (a = LPAREN)))
          · rfl
          · exact absurd hq hadj
        rw [if_neg hadj]
        rw [ih k (depthStep c k) hge]
        rw [decide_eq_true hge, hadjf]
        simp only [Bool.not_false, Bool.true_and, Bool.and_true]

/-- C6: `validate_tokens` coincides with the claim's finite-state adjacency
predicate over token kinds, for every token sequence and independently of
the token texts. -/
theorem claim6_validator_is_adjacency_fsm (ts : List Token) :
    validateTokens ts = specValidate (ts.map Prod.snd) := by
  cases ts with
  | nil => decide
  | cons hd rest =>
    obtain ⟨v, k⟩ := hd
    unfold validateTokens specValidate
    simp only [validateLoop, List.map_cons, depthsOkFrom, finalDepth,
      List.getLastD_cons, List.isEmpty_cons]
    rw [show (if k = LPAREN then (0:ℤ) + 1 else if k = RPAREN then 0 - 1 else 0) =
      depthStep 0 k from rfl]
    by_cases hneg : (k = RPAREN && decide (depthStep 0 k < 0)) = true
    · rcases Bool.and_eq_true_iff.mp hneg with ⟨hk, hlt⟩
      have hlt' : depthStep 0 k < 0 := of_decide_eq_true hlt
      rw [if_pos hneg]
      have : ¬ (0 ≤ depthStep 0 k) := by omega
      simp [this]
    · rw [if_neg hneg]
      have hge : 0 ≤ depthStep 0 k := by
        by_cases hk : k = RPAREN
        · subst hk
          simp only [Bool.and_eq_true_iff, not_and] at hneg
          have := hneg (by simp)
          simp only [decide_eq_true_eq] at this
          omega
        · simp only [depthStep]
          rw [if_neg hk]
          split <;> omega
      rw [if_neg (by simp)]
      rw [validateLoopSpec rest k (depthStep 0 k) hge]
      rw [decide_eq_true hge]
      simp only [Bool.not_false, Bool.true_and, Bool.and_true, decide_True]

/-! ## C7: division by zero in the evaluator -/

/-- With all binary operators known, evaluation either succeeds or fails
with exactly the division-by-zero error. -/
theorem evalDichotomy :
    ∀ t : AST, opsKnown t = true →
      (∃ v, evaluateNode t = Except.ok v) ∨
        evaluateNode t = Except.error divZeroMsg := by
  intro t
  induction t with
  | number v => intro _; exact Or.inl ⟨v, rfl⟩
  | unary op r ihr =>
    intro h
    rw [show opsKnown (AST.unary op r) = opsKnown r from rfl] at h
    rcases ihr h with ⟨v, hv⟩ | herr
    · by_cases hop : op = ['+']
      · exact Or.inl ⟨v, by simp [evaluateNode, hv, hop]⟩
      · exact Or.inl ⟨-v, by simp [evaluateNode, hv, hop]⟩
    · exact Or.inr (by simp [evaluateNode, herr])
  | binary op l r ihl ihr =>
    intro h
    simp only [opsKnown, Bool.and_eq_true_iff, Bool.or_eq_true,
      decide_eq_true_eq] at h
    obtain ⟨⟨hop, hl⟩, hr⟩ := h
    rcases ihl hl with ⟨lv, hlv⟩ | herrl
    · rcases ihr hr with ⟨rv, hrv⟩ | herrr
      · rcases hop with ((hop | hop) | hop) | hop
        · exact Or.inl ⟨lv + rv, by simp [evaluateNode, hlv, hrv, hop]⟩
        · exact Or.inl ⟨lv - rv, by simp [evaluateNode, hlv, hrv, hop]⟩
        · exact Or.inl ⟨lv * rv, by simp [evaluateNode, hlv, hrv, hop]⟩
        · by_cases hz : rv = 0
          · exact Or.inr (by simp [evaluateNode, hlv, hrv, hop, hz])
          · exact Or.inl ⟨lv / rv, by simp [evaluateNode, hlv, hrv, hop, hz]⟩
      · exact Or.inr (by simp [evaluateNode, hlv, herrr])
    · exact Or.inr (by simp [evaluateNode, herrl])

/-- With all binary operators known, evaluation raises the division-by-zero
error exactly when some division subterm's right operand evaluates to 0. -/
theorem divZeroIff :
    ∀ t : AST, opsKnown t = true →
      (evaluateNode t = Except.error divZeroMsg ↔ divZeroIn t = true) := by
  intro t
  induction t with
  | number v => intro _; simp [evaluateNode, divZeroIn]
  | unary op r ihr =>
    intro h
    rw [show opsKnown (AST.unary op r) = opsKnown r from rfl] at h
    rw [show divZeroIn (AST.unary op r) = divZeroIn r from rfl]
    rcases evalDichotomy r h with ⟨v, hv⟩ | herr
    · have h1 : evaluateNode (AST.unary op r) ≠ Except.error divZeroMsg := by
        by_cases hop : op = ['+'] <;> simp [evaluateNode, hv, hop]
      have h2 : divZeroIn r ≠ true := by
        intro hz
        have := (ihr h).mpr hz
        rw [this] at hv
        cases hv
      simp [h1, h2]
    · have h1 : evaluateNode (AST.unary op r) = Except.error divZeroMsg := by
        simp [evaluateNode, herr]
      simp [h1, (ihr h).mp herr]
  | binary op l r ihl ihr =>
    intro h
    simp only [opsKnown, Bool.and_eq_true_iff, Bool.or_eq_true,
      decide_eq_true_eq] at h
    obtain ⟨⟨hop, hl⟩, hr⟩ := h
    rcases evalDichotomy l hl with ⟨lv, hlv⟩ | herrl
    · rcases evalDichotomy r hr with ⟨rv, hrv⟩ | herrr
      · have hdl : divZeroIn l ≠ true := by
          intro hz
          have := (ihl hl).mpr hz
          rw [this] at hlv
          cases hlv
        have hdr : divZeroIn r ≠ true := by
          intro hz
          have := (ihr hr).mpr hz
          rw [this] at hrv
          cases hrv
        rcases hop with ((hop | hop) | hop) | hop
        · subst hop
          simp [evaluateNode, hlv, hrv, divZeroIn, hdl, hdr]
        · subst hop
          simp [evaluateNode, hlv, hrv, divZeroIn, hdl, hdr]
        · subst hop
          simp [evaluateNode, hlv, hrv, divZeroIn, hdl, hdr]
        · subst hop
          by_cases hz : rv = 0
          · subst hz
            simp [evaluateNode, hlv, hrv, divZeroIn, hdl, hdr]
          · have : ¬ (evaluateNode r = Except.ok 0) := by
              rw [hrv]
              intro hc
              cases hc
              exact hz rfl
            simp [evaluateNode, hlv, hrv, divZeroIn, hdl, hdr, hz, this]
      · have h1 : evaluateNode (AST.binary op l r) = Except.error divZeroMsg := by
          simp [evaluateNode, hlv, herrr]
        simp [h1, divZeroIn, (ihr hr).mp herrr]
    · have h1 : evaluateNode (AST.binary op l r) = Except.error divZeroMsg := by
        simp [evaluateNode, herrl]
      simp [h1, divZeroIn, (ihl hl).mp herrl]

/-- When every divisor evaluates to a nonzero value, no division subterm's
divisor evaluates to zero. -/
theorem nonzeroDivisorsNoDivZero :
    ∀ t : AST, divisorsEvalNonzero t = true → divZeroIn t = false := by
  intro t
  induction t with
  | number v => intro _; rfl
  | unary op r ihr =>
    intro h
    exact ihr h
  | binary op l r ihl ihr =>
    intro h
    simp only [divisorsEvalNonzero, Bool.and_eq_true_iff] at h
    obtain ⟨⟨hl, hr⟩, hdiv⟩ := h
    simp only [divZeroIn, ihl hl, ihr hr, Bool.false_or]
    by_cases hop : op = ['/']
    · subst hop
      simp only [decide_True, Bool.not_true, Bool.false_or] at hdiv
      simp only [decide_True, Bool.true_and]
      cases hre : evaluateNode r with
      | error e => simp [hre]
      | ok v =>
        rw [hre] at hdiv
        simp only [decide_eq_true_eq] at hdiv
        simp [hre, hdiv]
    · simp [hop]

/-- C7: for every AST over the operators `+ - * /`, `evaluate` raises the
division-by-zero error **iff** some division node's right operand evaluates
to exactly 0; and when every divisor evaluates to a nonzero value (negative
divisors included), the division-by-zero error is never raised. -/
theorem claim7_division_by_zero_characterized (t : AST)
    (h : opsKnown t = true) :
    (evaluateNode t = Except.error divZeroMsg ↔ divZeroIn t = true) ∧
    (divisorsEvalNonzero t = true →
      evaluateNode t ≠ Except.error divZeroMsg) := by
  refine ⟨divZeroIff t h, fun hnz hc => ?_⟩
  have h1 := (divZeroIff t h).mp hc
  rw [nonzeroDivisorsNoDivZero t hnz] at h1
  cases h1

/-- C7 witness: `6 / (-3)`, a negative divisor — operators known, divisors
nonzero, evaluation succeeds with `-2` and the characterization applies. -/
theorem claim7_witness :
    opsKnown (AST.binary ['/'] (AST.number 6)
      (AST.unary ['-'] (AST.number 3))) = true ∧
    divisorsEvalNonzero (AST.binary ['/'] (AST.number 6)
      (AST.unary ['-'] (AST.number 3))) = true ∧
    evaluateNode (AST.binary ['/'] (AST.number 6)
      (AST.unary ['-'] (AST.number 3))) = Except.ok (-2) ∧
    ((evaluateNode (AST.binary ['/'] (AST.number 6)
        (AST.unary ['-'] (AST.number 3))) = Except.error divZeroMsg ↔
      divZeroIn (AST.binary ['/'] (AST.number 6)
        (AST.unary ['-'] (AST.number 3))) = true) ∧
     (divisorsEvalNonzero (AST.binary ['/'] (AST.number 6)
        (AST.unary ['-'] (AST.number 3))) = true →
      evaluateNode (AST.binary ['/'] (AST.number 6)
        (AST.unary ['-'] (AST.number 3))) ≠ Except.error divZeroMsg)) :=
  ⟨by decide, by decide, by decide,
    claim7_division_by_zero_characterized _ (by decide)⟩

/-! ## C9: evaluation and step solving never mutate the AST -/

/-- The instrumented evaluator returns its input node unchanged: every field
read by `_evaluate_node` is passed through untouched. -/
theorem evaluateNodeTId :
    ∀ (t : AST) (v : ℚ) (t' : AST),
      evaluateNodeT t = Except.ok (v, t') → t' = t := by
  intro t
  induction t with
  | number q =>
    intro v t' h
    simp only [evaluateNodeT] at h
    cases h
    rfl
  | unary op r ihr =>
    intro v t' h
    simp only [evaluateNodeT] at h
    cases hre : evaluateNodeT r with
    | error e => rw [hre] at h; cases h
    | ok p =>
      obtain ⟨ov, r'⟩ := p
      rw [hre] at h
      by_cases hop : op = ['+']
      · subst hop
        simp at h
        rw [← h.2, ihr _ _ hre]
      · simp [hop] at h
        rw [← h.2, ihr _ _ hre]
  | binary op l r ihl ihr =>
    intro v t' h
    simp only [evaluateNodeT] at h
    cases hle : evaluateNodeT l with
    | error e => rw [hle] at h; cases h
    | ok p =>
      obtain ⟨lv, l'⟩ := p
      rw [hle] at h
      cases hre : evaluateNodeT r with
      | error e => rw [hre] at h; cases h
      | ok q =>
        obtain ⟨rv, r'⟩ := q
        rw [hre] at h
        by_cases h1 : op = ['+']
        · subst h1
          simp at h
          rw [← h.2, ihl _ _ hle, ihr _ _ hre]
        · by_cases h2 : op = ['-']
          · subst h2
            simp [h1] at h
            rw [← h.2, ihl _ _ hle, ihr _ _ hre]
          · by_cases h3 : op = ['*']
            · subst h3
              simp [h1, h2] at h
              rw [← h.2, ihl _ _ hle, ihr _ _ hre]
            · by_cases h4 : op = ['/']
              · subst h4
                by_cases hz : rv = 0
                · simp [h1, h2, h3, hz] at h
                · simp [h1, h2, h3, hz] at h
                  rw [← h.2, ihl _ _ hle, ihr _ _ hre]
              · simp [h1, h2, h3, h4] at h

/-- The instrumented step solver returns its input node unchanged: every
field read by `_solve_with_steps` is passed through untouched, and only the
step accumulator grows. -/
theorem solveWithStepsTId :
    ∀ (t : AST) (steps : List (List Char)) (v : ℚ) (t' : AST)
      (steps' : List (List Char)),
      solveWithStepsT t steps = Except.ok (v, t', steps') → t' = t := by
  intro t
  induction t with
  | number q =>
    intro steps v t' steps' h
    simp only [solveWithStepsT] at h
    cases h
    rfl
  | unary op r ihr =>
    intro steps v t' steps' h
    simp only [solveWithStepsT] at h
    cases hre : solveWithStepsT r steps with
    | error e => rw [hre] at h; cases h
    | ok p =>
      obtain ⟨ov, r', st1⟩ := p
      rw [hre] at h
      simp only [exBindOk] at h
      by_cases hop : op = ['+']
      · subst hop
        simp at h
        rw [← h.2.1, ihr _ _ _ _ hre]
      · simp [hop] at h
        rw [← h.2.1, ihr _ _ _ _ hre]
  | binary op l r ihl ihr =>
    intro steps v t' steps' h
    simp only [solveWithStepsT] at h
    cases hle : solveWithStepsT l steps with
    | error e => rw [hle] at h; cases h
    | ok p =>
      obtain ⟨lv, l', st1⟩ := p
      rw [hle] at h
      simp only [exBindOk] at h
      cases hre : solveWithStepsT r st1 with
      | error e => rw [hre] at h; cases h
      | ok q =>
        obtain ⟨rv, r', st2⟩ := q
        rw [hre] at h
        by_cases h1 : op = ['+']
        · subst h1
          simp at h
          rw [← h.2.1, ihl _ _ _ _ hle, ihr _ _ _ _ hre]
        · by_cases h2 : op = ['-']
          · subst h2
            simp [h1] at h
            rw [← h.2.1, ihl _ _ _ _ hle, ihr _ _ _ _ hre]
          · by_cases h3 : op = ['*']
            · subst h3
              simp [h1, h2] at h
              rw [← h.2.1, ihl _ _ _ _ hle, ihr _ _ _ _ hre]
            · by_cases h4 : op = ['/']
              · subst h4
                by_cases hz : rv = 0
                · simp [h1, h2, h3, hz] at h
                · simp [h1, h2, h3, hz] at h
                  rw [← h.2.1, ihl _ _ _ _ hle, ihr _ _ _ _ hre]
              · simp [h1, h2, h3, h4] at h

/-- C9: neither evaluation nor the step solver mutates the AST — the
instrumented variants (which rebuild each node from the fields the source
functions leave behind) return every visited node with the same value,
children and node type it had before. -/
theorem claim9_ast_never_mutated (t : AST) :
    (∀ (v : ℚ) (t' : AST),
      evaluateNodeT t = Except.ok (v, t') → t' = t) ∧
    (∀ (steps : List (List Char)) (v : ℚ) (t' : AST)
      (steps' : List (List Char)),
      solveWithStepsT t steps = Except.ok (v, t', steps') → t' = t) :=
  ⟨evaluateNodeTId t, solveWithStepsTId t⟩

/-- C9 witness: evaluating and step-solving `3 * 4` returns the node
unchanged. -/
theorem claim9_witness :
    evaluateNodeT (AST.binary ['*'] (AST.number 3) (AST.number 4)) =
      Except.ok (12, AST.binary ['*'] (AST.number 3) (AST.number 4)) ∧
    AST.binary ['*'] (AST.number 3) (AST.number 4) =
      AST.binary ['*'] (AST.number 3) (AST.number 4) ∧
    AST.binary ['*'] (AST.number 3) (AST.number 4) =
      AST.binary ['*'] (AST.number 3) (AST.number 4) :=
  ⟨by decide,
    (claim9_ast_never_mutated (AST.binary ['*'] (AST.number 3)
      (AST.number 4))).1 12 _ (by decide),
    (claim9_ast_never_mutated (AST.binary ['*'] (AST.number 3)
      (AST.number 4))).2 [] 12 _
        (["3.0 * 4.0 = 12.0".data]) (by decide)⟩

/-! ## Digit strings: rendering and parsing round trip -/

theorem digitCharVal {d : ℕ} (h : d < 10) : (digitChar d).toNat - 48 = d := by
  interval_cases d <;> decide

theorem digitCharIsDigit {d : ℕ} (h : d < 10) : (digitChar d).isDigit = true := by
  interval_cases d <;> decide

theorem natDigitsFuelLt :
    ∀ (f n d : ℕ), d ∈ natDigitsFuel f n → d < 10 := by
  intro f
  induction f with
  | zero => intro n d h; simp [natDigitsFuel] at h
  | succ f ih =>
    intro n d h
    unfold natDigitsFuel at h
    by_cases h0 : n = 0
    · simp [h0] at h
    · rw [if_neg h0] at h
      rcases List.mem_cons.mp h with rfl | h2
      · exact Nat.mod_lt n (by norm_num)
      · exact ih _ _ h2

theorem ofDigitsNatDigitsFuel :
    ∀ (f n : ℕ), n ≤ f → Nat.ofDigits 10 (natDigitsFuel f n) = n := by
  intro f
  induction f with
  | zero =>
    intro n h
    have : n = 0 := by omega
    subst this
    simp [natDigitsFuel, Nat.ofDigits]
  | succ f ih =>
    intro n h
    unfold natDigitsFuel
    by_cases h0 : n = 0
    · subst h0; simp [Nat.ofDigits]
    · rw [if_neg h0, Nat.ofDigits_cons]
      have hlt : n / 10 < n := Nat.div_lt_self (by omega) (by norm_num)
      rw [ih (n / 10) (by omega)]
      omega

theorem natDigitsFuelLen :
    ∀ (f n k : ℕ), n < 10 ^ k → (natDigitsFuel f n).length ≤ k := by
  intro f
  induction f with
  | zero => intro n k _; simp [natDigitsFuel]
  | succ f ih =>
    intro n k h
    unfold natDigitsFuel
    by_cases h0 : n = 0
    · simp [h0]
    · rw [if_neg h0]
      have hk : 1 ≤ k := by
        by_contra hc
        have : k = 0 := by omega
        subst this
        simp at h
        omega
      have hdiv : n / 10 < 10 ^ (k - 1) := by
        rw [Nat.div_lt_iff_lt_mul (by norm_num : 0 < 10)]
        calc n < 10 ^ k := h
          _ = 10 ^ (k - 1) * 10 := by
              rw [← pow_succ]
              congr 1
              omega
      have := ih (n / 10) (k - 1) hdiv
      simp only [List.length_cons]
      omega

theorem foldDigitsRev :
    ∀ (L : List ℕ) (a : ℕ), (∀ d ∈ L, d < 10) →
      List.foldl (fun acc c => 10 * acc + (c.toNat - 48)) a
          ((L.map digitChar).reverse) =
        a * 10 ^ L.length + Nat.ofDigits 10 L := by
  intro L
  induction L with
  | nil => intro a _; simp [Nat.ofDigits]
  | cons d L ih =>
    intro a h
    simp only [List.map_cons, List.reverse_cons]
    rw [List.foldl_append]
    rw [ih a (fun x hx => h x (List.mem_cons_of_mem _ hx))]
    simp only [List.foldl_cons, List.foldl_nil]
    rw [digitCharVal (h d (List.mem_cons_self _ _))]
    rw [Nat.ofDigits_cons]
    simp only [List.length_cons]
    ring

theorem charsToNatNatToChars (n : ℕ) : charsToNat (natToChars n) = n := by
  unfold natToChars
  by_cases h0 : n = 0
  · subst h0; decide
  · rw [if_neg h0]
    unfold charsToNat
    rw [foldDigitsRev _ 0 (fun d hd => natDigitsFuelLt _ _ _ hd)]
    rw [ofDigitsNatDigitsFuel n n le_rfl]
    ring

theorem natToCharsDigits (n : ℕ) : ∀ c ∈ natToChars n, c.isDigit = true := by
  unfold natToChars
  by_cases h0 : n = 0
  · rw [if_pos h0]; intro c hc; simp at hc; subst hc; decide
  · rw [if_neg h0]
    intro c hc
    rw [List.mem_reverse, List.mem_map] at hc
    obtain ⟨d, hd, rfl⟩ := hc
    exact digitCharIsDigit (natDigitsFuelLt _ _ _ hd)

theorem natToCharsNe (n : ℕ) : natToChars n ≠ [] := by
  unfold natToChars
  by_cases h0 : n = 0
  · rw [if_pos h0]; simp
  · rw [if_neg h0]
    cases n with
    | zero => exact absurd rfl h0
    | succ n =>
      unfold natDigitsFuel
      rw [if_neg h0]
      simp

theorem natToCharsLen {n k : ℕ} (hk : 1 ≤ k) (h : n < 10 ^ k) :
    (natToChars n).length ≤ k := by
  unfold natToChars
  by_cases h0 : n = 0
  · rw [if_pos h0]; simpa using hk
  · rw [if_neg h0]
    simp only [List.length_reverse, List.length_map]
    exact natDigitsFuelLen _ _ _ h

theorem foldlZeros :
    ∀ (m : ℕ), List.foldl (fun acc c => 10 * acc + (c.toNat - 48)) 0
      (List.replicate m '0') = 0 := by
  intro m
  induction m with
  | zero => rfl
  | succ m ih => simpa [List.replicate_succ] using ih

theorem charsToNatPad (k : ℕ) (cs : List Char) :
    charsToNat (padZeros k cs) = charsToNat cs := by
  unfold padZeros charsToNat
  rw [List.foldl_append, foldlZeros]

theorem padZerosLen {k : ℕ} {cs : List Char} (h : cs.length ≤ k) :
    (padZeros k cs).length = k := by
  simp only [padZeros, List.length_append, List.length_replicate]
  omega

theorem padZerosDigits {k : ℕ} {cs : List Char}
    (h : ∀ c ∈ cs, c.isDigit = true) :
    ∀ c ∈ padZeros k cs, c.isDigit = true := by
  intro c hc
  rcases List.mem_append.mp hc with h1 | h1
  · have := List.eq_of_mem_replicate h1
    subst this
    decide
  · exact h c h1

/-! ## Decimal rationals and the fractional-digit search -/

/-- A positive divisor of some power of ten divides the power of ten with
its own exponent (its prime factors are only 2 and 5, and their
multiplicities are below the number itself). -/
theorem dvd10pow :
    ∀ d : ℕ, 0 < d → ∀ L : ℕ, d ∣ 10 ^ L → d ∣ 10 ^ d := by
  intro d
  induction d using Nat.strong_induction_on with
  | _ d ih =>
    intro hpos L hdvd
    rcases Nat.lt_or_ge d 2 with h2 | h2
    · have : d = 1 := by omega
      subst this
      exact one_dvd _
    · set p := d.minFac with hp_def
      have hp : p.Prime := Nat.minFac_prime (by omega)
      have hpd : p ∣ d := Nat.minFac_dvd d
      have hp10 : p ∣ 10 := hp.dvd_of_dvd_pow (hpd.trans hdvd)
      have hple : p ≤ 10 := Nat.le_of_dvd (by norm_num) hp10
      have hp2 : 2 ≤ p := hp.two_le
      set d' := d / p with hd'_def
      have hdd' : p * d' = d := Nat.mul_div_cancel' hpd
      have hd'pos : 0 < d' := by
        rcases Nat.eq_zero_or_pos d' with h0 | h0
        · rw [h0, Nat.mul_zero] at hdd'; omega
        · exact h0
      have hd'lt : d' < d := Nat.div_lt_self hpos (by omega)
      have hd'dvd10L : d' ∣ 10 ^ L :=
        dvd_trans ⟨p, by rw [Nat.mul_comm]; exact hdd'.symm⟩ hdvd
      have ihd' : d' ∣ 10 ^ d' := ih d' hd'lt hd'pos L hd'dvd10L
      have hstep : d ∣ 10 ^ (d' + 1) := by
        rw [pow_succ]
        calc d = p * d' := hdd'.symm
          _ ∣ 10 * 10 ^ d' := mul_dvd_mul hp10 ihd'
          _ = 10 ^ d' * 10 := by ring
      exact hstep.trans (pow_dvd_pow 10 (by omega))

/-- From `(q * 10 ^ L).den = 1` the denominator of `q` divides `10 ^ L`. -/
theorem denDvdOfMulPow {q : ℚ} {L : ℕ} (h : (q * 10 ^ L).den = 1) :
    q.den ∣ 10 ^ L := by
  set z := (q * 10 ^ L).num with hz_def
  have hz : ((z : ℚ)) = q * 10 ^ L := (Rat.den_eq_one_iff _).mp h
  have hq : q = Rat.divInt z (10 ^ L) := by
    rw [Rat.divInt_eq_div, hz]
    push_cast
    rw [mul_div_assoc, div_self (by positivity : ((10:ℚ) ^ L) ≠ 0), mul_one]
  have hdvd : ((Rat.divInt z (10 ^ L)).den : ℤ) ∣ 10 ^ L := Rat.den_dvd z _
  rw [← hq] at hdvd
  have : ((q.den : ℤ)) ∣ ((10 ^ L : ℕ) : ℤ) := by exact_mod_cast hdvd
  exact_mod_cast this

/-- Conversely, when the denominator divides `10 ^ k` the product is
integral. -/
theorem mulPowDenOne {q : ℚ} {k : ℕ} (h : q.den ∣ 10 ^ k) :
    (q * 10 ^ k).den = 1 := by
  have hd : ((q.den : ℤ)) ∣ ((10 : ℤ) ^ k) := by exact_mod_cast h
  have hden0 : ((q.den : ℚ)) ≠ 0 := by
    exact_mod_cast q.den_nz
  have hq : q * 10 ^ k = ((q.num * ((10 ^ k : ℤ) / (q.den : ℤ)) : ℤ) : ℚ) := by
    rw [Int.cast_mul, Int.cast_div_charZero hd]
    push_cast
    rw [mul_div_assoc']
    rw [mul_comm (q.num : ℚ) ((10:ℚ) ^ k), mul_div_assoc]
    rw [Rat.num_div_den]
    ring
  rw [hq, Rat.den_intCast]

theorem firstKGe (q : ℚ) : ∀ (fuel k : ℕ), k ≤ firstK q k fuel := by
  intro fuel
  induction fuel with
  | zero => intro k; simp [firstK]
  | succ fuel ih =>
    intro k
    unfold firstK
    by_cases h : (q * 10 ^ k).den = 1
    · simp [h]
    · rw [if_neg h]
      exact le_trans (by omega) (ih (k + 1))

theorem firstKValid (q : ℚ) :
    ∀ (fuel k : ℕ), (q * 10 ^ (k + fuel)).den = 1 →
      (q * 10 ^ (firstK q k fuel)).den = 1 := by
  intro fuel
  induction fuel with
  | zero => intro k h; simpa [firstK] using h
  | succ fuel ih =>
    intro k h
    unfold firstK
    by_cases h1 : (q * 10 ^ k).den = 1
    · simpa [h1]
    · rw [if_neg h1]
      exact ih (k + 1) (by rw [show k + 1 + fuel = k + (fuel + 1) by omega]; exact h)

/-- For a decimal `q` the fractional-digit search succeeds. -/
theorem kOfValid {q : ℚ} (h : DecimalQ q) : (q * 10 ^ kOf q).den = 1 := by
  obtain ⟨L, hL⟩ := h
  have h2 : q.den ∣ 10 ^ q.den :=
    dvd10pow q.den q.pos L (denDvdOfMulPow hL)
  have h3 : (q * 10 ^ (0 + q.den)).den = 1 := by
    rw [Nat.zero_add]
    exact mulPowDenOne h2
  exact firstKValid q q.den 0 h3

/-- For a non-integral `q` the search returns at least one fractional
digit. -/
theorem kOfPos {q : ℚ} (hden : q.den ≠ 1) : 1 ≤ kOf q := by
  unfold kOf
  have hd := q.pos
  cases hq : q.den with
  | zero => omega
  | succ d =>
    unfold firstK
    have h0 : ¬ ((q * 10 ^ 0).den = 1) := by
      simpa using hden
    rw [if_neg h0]
    exact firstKGe q d 1

/-! ## The render / parse round trip for decimal values -/

theorem takeWhileDropAppend {p : Char → Bool} :
    ∀ (xs : List Char) (y : Char) (ys : List Char),
      (∀ x ∈ xs, p x = true) → p y = false →
      List.takeWhile p (xs ++ y :: ys) = xs ∧
      List.dropWhile p (xs ++ y :: ys) = y :: ys := by
  intro xs
  induction xs with
  | nil =>
    intro y ys _ hy
    simp [List.takeWhile_cons, List.dropWhile_cons, hy]
  | cons x xs ih =>
    intro y ys hall hy
    have hx : p x = true := hall x (List.mem_cons_self _ _)
    obtain ⟨ht, hd⟩ := ih y ys (fun a ha => hall a (List.mem_cons_of_mem _ ha)) hy
    constructor
    · simp [List.takeWhile_cons, hx, ht]
    · simp [List.dropWhile_cons, hx, hd]

theorem takeWhileAll {p : Char → Bool} :
    ∀ {l : List Char}, (∀ x ∈ l, p x = true) →
      List.takeWhile p l = l ∧ List.dropWhile p l = [] := by
  intro l
  induction l with
  | nil => intro _; simp
  | cons x xs ih =>
    intro h
    have hx : p x = true := h x (List.mem_cons_self _ _)
    obtain ⟨ht, hd⟩ := ih (fun a ha => h a (List.mem_cons_of_mem _ ha))
    constructor
    · simp [List.takeWhile_cons, hx, ht]
    · simp [List.dropWhile_cons, hx, hd]

/-- Mantissa parse of a `<digits>.<digits>` string. -/
theorem pyMantissaOfParts {A B : List Char} (hA : ∀ c ∈ A, c.isDigit = true) :
    pyMantissa (A ++ '.' :: B) =
      (charsToNat A : ℚ) + (charsToNat B : ℚ) / 10 ^ B.length := by
  obtain ⟨ht, hd⟩ := takeWhileDropAppend A '.' B hA (by decide)
  unfold pyMantissa
  rw [ht, hd]
  rfl

/-- A decimal digit is not the exponent marker. -/
theorem digitNotExp {c : Char} (h : c.isDigit = true) : isExpChar c = false := by
  unfold isExpChar
  have h1 : ¬ c = 'e' := by intro hc; subst hc; exact absurd h (by decide)
  have h2 : ¬ c = 'E' := by intro hc; subst hc; exact absurd h (by decide)
  simp [h1, h2]

/-- On an exponent-free string, `float()` is the bare mantissa parse. -/
theorem pyFloatNNNoExp {cs : List Char}
    (h : ∀ c ∈ cs, isExpChar c = false) : pyFloatNN cs = pyMantissa cs := by
  obtain ⟨_, hdw⟩ := takeWhileAll (p := fun c => !isExpChar c)
    (l := cs) (fun c hc => by show (!isExpChar c) = true; rw [h c hc]; rfl)
  unfold pyFloatNN
  rw [hdw]

/-- `str` of a nonnegative decimal in fixed-point form splits as nonempty
digit strings around a single dot, and parsing it back recovers the
value. -/
theorem renderFixedStructure {q : ℚ} (hq : 0 ≤ q) (hd : DecimalQ q) :
    ∃ A B, renderFixed q = A ++ '.' :: B ∧ A ≠ [] ∧ B ≠ [] ∧
      (∀ c ∈ A, c.isDigit = true) ∧ (∀ c ∈ B, c.isDigit = true) ∧
      pyMantissa (renderFixed q) = q := by
  unfold renderFixed
  by_cases h1 : q.den = 1
  · rw [if_pos h1]
    refine ⟨natToChars q.num.toNat, ['0'], rfl, natToCharsNe _, by simp,
      natToCharsDigits _, by intro c hc; simp at hc; subst hc; decide, ?_⟩
    rw [show natToChars q.num.toNat ++ ['.', '0'] =
      natToChars q.num.toNat ++ '.' :: ['0'] from rfl]
    rw [pyMantissaOfParts (natToCharsDigits _)]
    rw [charsToNatNatToChars]
    have hnum : ((q.num.toNat : ℤ)) = q.num :=
      Int.toNat_of_nonneg (Rat.num_nonneg.mpr hq)
    have : ((q.num.toNat : ℚ)) = q := by
      rw [← Rat.den_eq_one_iff q |>.mp h1]
      exact_mod_cast congrArg (fun z : ℤ => (z : ℚ)) hnum
    rw [this]
    rw [(by decide : charsToNat ['0'] = 0)]
    norm_num
  · rw [if_neg h1]
    have hk1 : (q * 10 ^ kOf q).den = 1 := kOfValid hd
    have hkpos : 1 ≤ kOf q := kOfPos h1
    set k := kOf q with hk_def
    set m := (q * 10 ^ k).num.toNat with hm_def
    have hmq : ((m : ℚ)) = q * 10 ^ k := by
      have hnn : (0:ℚ) ≤ q * 10 ^ k := mul_nonneg hq (by positivity)
      have : ((m : ℤ)) = (q * 10 ^ k).num :=
        Int.toNat_of_nonneg (Rat.num_nonneg.mpr hnn)
      rw [← Rat.den_eq_one_iff _ |>.mp hk1]
      exact_mod_cast congrArg (fun z : ℤ => (z : ℚ)) this
    have hfraclt : m % 10 ^ k < 10 ^ k := Nat.mod_lt _ (by positivity)
    have hBlen : (padZeros k (natToChars (m % 10 ^ k))).length = k :=
      padZerosLen (natToCharsLen hkpos hfraclt)
    refine ⟨natToChars (m / 10 ^ k), padZeros k (natToChars (m % 10 ^ k)),
      rfl, natToCharsNe _, ?_, natToCharsDigits _,
      padZerosDigits (natToCharsDigits _), ?_⟩
    · intro hc
      rw [hc] at hBlen
      simp at hBlen
      omega
    · rw [show natToChars (m / 10 ^ k) ++
        '.' :: padZeros k (natToChars (m % 10 ^ k)) =
        natToChars (m / 10 ^ k) ++ '.' :: padZeros k (natToChars (m % 10 ^ k))
        from rfl]
      rw [pyMantissaOfParts (natToCharsDigits _)]
      rw [charsToNatNatToChars, charsToNatPad, charsToNatNatToChars, hBlen]
      have h10 : ((10:ℚ) ^ k) ≠ 0 := by positivity
      have hq' : q = (m : ℚ) / 10 ^ k := by
        rw [hmq, mul_div_assoc, div_self h10, mul_one]
      rw [hq', eq_div_iff h10, add_mul, div_mul_cancel₀ _ h10]
      have hdm := Nat.div_add_mod m (10 ^ k)
      have hmeq : (m : ℚ) = ((10 ^ k * (m / 10 ^ k) + m % 10 ^ k : ℕ) : ℚ) := by
        rw [hdm]
      rw [hmeq]
      push_cast
      ring

/-- Parsing the fixed-point rendering of a nonnegative decimal recovers
it. -/
theorem pyFloatNNRenderFixed {q : ℚ} (hq : 0 ≤ q) (hd : DecimalQ q) :
    pyFloatNN (renderFixed q) = q := by
  obtain ⟨A, B, heq, _, _, hAdig, hBdig, h⟩ := renderFixedStructure hq hd
  have hfree : ∀ c ∈ renderFixed q, isExpChar c = false := by
    intro c hc
    rw [heq] at hc
    rcases List.mem_append.mp hc with h1 | h1
    · exact digitNotExp (hAdig c h1)
    · rcases List.mem_cons.mp h1 with rfl | h2
      · decide
      · exact digitNotExp (hBdig c h2)
  rw [pyFloatNNNoExp hfree]
  exact h

/-- The fixed-point rendering of a nonnegative decimal starts with a
digit. -/
theorem renderFixedHeadDigit {q : ℚ} (hq : 0 ≤ q) (hd : DecimalQ q) :
    ∃ c cs, renderFixed q = c :: cs ∧ c.isDigit = true := by
  obtain ⟨A, B, heq, hAne, _, hAdig, _, _⟩ := renderFixedStructure hq hd
  cases A with
  | nil => exact absurd rfl hAne
  | cons c cs =>
    exact ⟨c, cs ++ '.' :: B, by simpa using heq,
      hAdig c (List.mem_cons_self _ _)⟩

/-- `float()` routes a digit-headed literal through the unsigned parse. -/
theorem pyFloatHeadDigit {c : Char} {cs : List Char} (h : c.isDigit = true) :
    pyFloat (c :: cs) = pyFloatNN (c :: cs) := by
  unfold pyFloat
  split
  · next r heq =>
    rw [List.cons.injEq] at heq
    rw [heq.1] at h
    simp [Char.isDigit] at h
  · next r heq =>
    rw [List.cons.injEq] at heq
    rw [heq.1] at h
    simp [Char.isDigit] at h
  · rfl

/-! ## Digit counts, trailing zeros and the scientific round trip -/

theorem foldCharsAcc :
    ∀ (cs : List Char) (a : ℕ),
      List.foldl (fun x c => 10 * x + (c.toNat - 48)) a cs =
        a * 10 ^ cs.length + charsToNat cs := by
  intro cs
  induction cs with
  | nil => intro a; simp [charsToNat]
  | cons c cs ih =>
    intro a
    simp only [List.foldl_cons, List.length_cons]
    rw [ih (10 * a + (c.toNat - 48))]
    rw [show charsToNat (c :: cs) =
      List.foldl (fun x c => 10 * x + (c.toNat - 48))
        (10 * 0 + (c.toNat - 48)) cs from rfl]
    rw [ih (10 * 0 + (c.toNat - 48))]
    ring

theorem charsToNatAppend (A B : List Char) :
    charsToNat (A ++ B) = charsToNat A * 10 ^ B.length + charsToNat B := by
  show List.foldl (fun x c => 10 * x + (c.toNat - 48)) 0 (A ++ B) = _
  rw [List.foldl_append, foldCharsAcc]
  rfl

/-- A positive number lies between the powers of ten delimited by its digit
count. -/
theorem natDigitsLenBounds :
    ∀ (f n : ℕ), n ≤ f → 1 ≤ n →
      10 ^ ((natDigitsFuel f n).length - 1) ≤ n ∧
        n < 10 ^ (natDigitsFuel f n).length := by
  intro f
  induction f with
  | zero =>
    intro n h h1
    exact absurd (h1.trans h) (by decide)
  | succ f ih =>
    intro n h h1
    unfold natDigitsFuel
    rw [if_neg (by omega : ¬ n = 0)]
    simp only [List.length_cons]
    by_cases h0 : n / 10 = 0
    · rw [h0]
      have hz : natDigitsFuel f 0 = [] := by cases f <;> rfl
      rw [hz]
      have hn10 : n < 10 := by omega
      constructor
      · simpa using h1
      · simpa using hn10
    · have h10 : 1 ≤ n / 10 := by omega
      have hle : n / 10 ≤ f := by omega
      obtain ⟨hlo, hhi⟩ := ih (n / 10) hle h10
      constructor
      · rw [Nat.add_sub_cancel]
        have hsplit : (10:ℕ) ^ (natDigitsFuel f (n / 10)).length =
            10 ^ ((natDigitsFuel f (n / 10)).length - 1) * 10 := by
          rw [← pow_succ]
          congr 1
          have hlen1 : 1 ≤ (natDigitsFuel f (n / 10)).length := by
            by_contra hc
            have h0' : (natDigitsFuel f (n / 10)).length = 0 := by omega
            rw [h0'] at hhi
            simp at hhi
            omega
          omega
        rw [hsplit]
        have h2 : 10 ^ ((natDigitsFuel f (n / 10)).length - 1) * 10 ≤
            (n / 10) * 10 := mul_le_mul_right' hlo 10
        omega
      · rw [pow_succ]
        have h2 : (n / 10 + 1) * 10 ≤
            10 ^ (natDigitsFuel f (n / 10)).length * 10 :=
          mul_le_mul_right' (by omega) 10
        omega

theorem natToCharsLenBounds {n : ℕ} (h : 1 ≤ n) :
    10 ^ ((natToChars n).length - 1) ≤ n ∧ n < 10 ^ (natToChars n).length := by
  unfold natToChars
  rw [if_neg (by omega : ¬ n = 0)]
  simp only [List.length_reverse, List.length_map]
  exact natDigitsLenBounds n n le_rfl h

/-- The digit count of a positive number is determined by the power-of-ten
window it lies in. -/
theorem digitLenEq {n a b : ℕ} (ha1 : 10 ^ (a - 1) ≤ n) (ha2 : n < 10 ^ a)
    (hb1 : 10 ^ (b - 1) ≤ n) (hb2 : n < 10 ^ b) : a = b := by
  by_contra hne
  rcases Nat.lt_or_ge a b with hab | hab
  · have hple : (10:ℕ) ^ a ≤ 10 ^ (b - 1) :=
      Nat.pow_le_pow_right (by norm_num) (by omega)
    omega
  · have hba : b < a := by omega
    have hple : (10:ℕ) ^ b ≤ 10 ^ (a - 1) :=
      Nat.pow_le_pow_right (by norm_num) (by omega)
    omega

/-- Appending `t` zero digits adds `t` to the digit count. -/
theorem natToCharsLenMulPow {S : ℕ} (hS : 1 ≤ S) (t : ℕ) :
    (natToChars (S * 10 ^ t)).length = (natToChars S).length + t := by
  have h10t : 0 < 10 ^ t := by positivity
  have hM : 1 ≤ S * 10 ^ t :=
    Nat.one_le_iff_ne_zero.mpr
      (Nat.mul_ne_zero (by omega) (Nat.pos_iff_ne_zero.mp h10t))
  obtain ⟨hM1, hM2⟩ := natToCharsLenBounds hM
  obtain ⟨hS1, hS2⟩ := natToCharsLenBounds hS
  have hSlen : 1 ≤ (natToChars S).length :=
    List.length_pos.mpr (natToCharsNe S)
  apply digitLenEq hM1 hM2 ?_ ?_
  · have he : (natToChars S).length + t - 1 =
        ((natToChars S).length - 1) + t := by omega
    rw [he, pow_add]
    exact mul_le_mul_right' hS1 _
  · rw [pow_add]
    exact mul_lt_mul_of_pos_right hS2 h10t

theorem trailingZerosDvd : ∀ (f n : ℕ), 10 ^ trailingZeros f n ∣ n := by
  intro f
  induction f with
  | zero => intro n; simp [trailingZeros]
  | succ f ih =>
    intro n
    unfold trailingZeros
    by_cases h : n ≠ 0 ∧ n % 10 = 0
    · rw [if_pos h]
      obtain ⟨c, hc⟩ := ih (n / 10)
      refine ⟨c, ?_⟩
      rw [pow_succ]
      calc n = n / 10 * 10 := by omega
        _ = 10 ^ trailingZeros f (n / 10) * c * 10 := by rw [← hc]
        _ = 10 ^ trailingZeros f (n / 10) * 10 * c := by ring
    · rw [if_neg h]
      simp

theorem sciMantissaHead {ds : List Char} (hds : ∀ c ∈ ds, c.isDigit = true) :
    ∃ c cs, sciMantissa ds = c :: cs ∧ c.isDigit = true := by
  cases ds with
  | nil => exact ⟨'0', [], rfl, by decide⟩
  | cons d rest =>
    cases rest with
    | nil => exact ⟨d, [], rfl, hds d (List.mem_cons_self _ _)⟩
    | cons r rest' =>
      exact ⟨d, '.' :: r :: rest', rfl, hds d (List.mem_cons_self _ _)⟩

theorem sciMantissaMem {ds : List Char} :
    ∀ c ∈ sciMantissa ds, c ∈ ds ∨ c = '.' ∨ c = '0' := by
  cases ds with
  | nil =>
    intro c hc
    rw [show sciMantissa [] = ['0'] from rfl] at hc
    right; right
    simpa using hc
  | cons d rest =>
    cases rest with
    | nil =>
      intro c hc
      rw [show sciMantissa [d] = [d] from rfl] at hc
      left
      exact hc
    | cons r rest' =>
      intro c hc
      rw [show sciMantissa (d :: r :: rest') =
        d :: '.' :: r :: rest' from rfl] at hc
      rcases List.mem_cons.mp hc with rfl | hc2
      · left; exact List.mem_cons_self _ _
      · rcases List.mem_cons.mp hc2 with rfl | hc3
        · right; left; rfl
        · left; exact List.mem_cons_of_mem _ hc3

/-- `float()` parses back a rendered exponent: an explicit sign and
zero-padded digits. -/
theorem pyExpRender (e : ℤ) :
    pyExp ((if e < 0 then '-' else '+') ::
      padZeros 2 (natToChars e.natAbs)) = e := by
  by_cases he : e < 0
  · rw [if_pos he]
    show -(charsToNat (padZeros 2 (natToChars e.natAbs)) : ℤ) = e
    rw [charsToNatPad, charsToNatNatToChars]
    omega
  · rw [if_neg he]
    show (charsToNat (padZeros 2 (natToChars e.natAbs)) : ℤ) = e
    rw [charsToNatPad, charsToNatNatToChars]
    omega

/-- Mantissa parse of the scientific mantissa string of `S ≥ 1`. -/
theorem pyMantissaSci {S : ℕ} (hS : 1 ≤ S) :
    pyMantissa (sciMantissa (natToChars S)) =
      (S : ℚ) / 10 ^ ((natToChars S).length - 1) := by
  have hdig := natToCharsDigits S
  have hne := natToCharsNe S
  cases hds : natToChars S with
  | nil => exact absurd hds hne
  | cons d rest =>
    rw [hds] at hdig
    have hd1 : d.isDigit = true := hdig d (List.mem_cons_self _ _)
    cases rest with
    | nil =>
      rw [show sciMantissa [d] = [d] from rfl]
      have hcS : charsToNat [d] = S := by
        conv_rhs => rw [← charsToNatNatToChars S, hds]
      obtain ⟨ht, hdw⟩ := takeWhileAll (p := Char.isDigit) (l := [d])
        (by intro c hc; rw [List.mem_singleton] at hc; subst hc; exact hd1)
      unfold pyMantissa
      rw [ht, hdw]
      show (charsToNat [d] : ℚ) = _
      rw [hcS]
      simp
    | cons r rest' =>
      rw [show sciMantissa (d :: r :: rest') =
        [d] ++ '.' :: (r :: rest') from rfl]
      rw [pyMantissaOfParts (by
        intro c hc
        rw [List.mem_singleton] at hc
        subst hc
        exact hd1)]
      have hS' : S = charsToNat [d] * 10 ^ (r :: rest').length +
          charsToNat (r :: rest') := by
        conv_lhs => rw [← charsToNatNatToChars S, hds]
        rw [show (d :: r :: rest') = [d] ++ (r :: rest') from rfl,
          charsToNatAppend]
      have hlen : (d :: r :: rest').length - 1 = (r :: rest').length := by
        simp
      rw [hlen]
      have hSq : (S : ℚ) = (charsToNat [d] : ℚ) * 10 ^ (r :: rest').length +
          (charsToNat (r :: rest') : ℚ) := by
        rw [hS']
        push_cast
        ring
      rw [hSq]
      field_simp

/-- `10 ^ z` is nonnegative for every integer exponent. -/
theorem tenZpowNonneg (z : ℤ) : (0:ℚ) ≤ (10:ℚ) ^ z := by
  cases z with
  | ofNat n =>
    rw [show (Int.ofNat n) = ((n : ℕ) : ℤ) from rfl, zpow_natCast]
    positivity
  | negSucc n =>
    rw [zpow_negSucc]
    positivity

/-- Parsing the scientific rendering of a positive decimal recovers it. -/
theorem pyFloatNNRenderSci {q : ℚ} (hq : 0 < q) (hd : DecimalQ q) :
    pyFloatNN (renderSci q) = q := by
  have hk1 : (q * 10 ^ fracDigits q).den = 1 := by
    unfold fracDigits
    by_cases h1 : q.den = 1
    · rw [if_pos h1, pow_zero, mul_one]
      exact h1
    · rw [if_neg h1]
      exact kOfValid hd
  have hMq : ((sigDigitsInt q : ℚ)) = q * 10 ^ fracDigits q := by
    have hnn : (0:ℚ) ≤ q * 10 ^ fracDigits q :=
      mul_nonneg (le_of_lt hq) (by positivity)
    have hZ : ((sigDigitsInt q : ℤ)) = (q * 10 ^ fracDigits q).num :=
      Int.toNat_of_nonneg (Rat.num_nonneg.mpr hnn)
    rw [← Rat.den_eq_one_iff _ |>.mp hk1]
    exact_mod_cast congrArg (fun z : ℤ => (z : ℚ)) hZ
  have hM1 : 1 ≤ sigDigitsInt q := by
    by_contra hc
    have h0 : sigDigitsInt q = 0 := by omega
    rw [h0] at hMq
    have hpos : (0:ℚ) < q * 10 ^ fracDigits q := mul_pos hq (by positivity)
    rw [← hMq] at hpos
    simp at hpos
  have hMS : sciSig q * 10 ^ trailingZeros (sigDigitsInt q) (sigDigitsInt q) =
      sigDigitsInt q :=
    Nat.div_mul_cancel (trailingZerosDvd (sigDigitsInt q) (sigDigitsInt q))
  have hS1 : 1 ≤ sciSig q := by
    by_contra hc
    have h0 : sciSig q = 0 := by omega
    rw [h0] at hMS
    simp at hMS
    omega
  have hD : (natToChars (sigDigitsInt q)).length =
      (natToChars (sciSig q)).length +
        trailingZeros (sigDigitsInt q) (sigDigitsInt q) := by
    conv_lhs => rw [← hMS]
    exact natToCharsLenMulPow hS1 _
  have hmantE : ∀ c ∈ sciMantissa (natToChars (sciSig q)),
      (fun c => !isExpChar c) c = true := by
    intro c hc
    rcases sciMantissaMem c hc with hin | hdot | hzero
    · show (!isExpChar c) = true
      rw [digitNotExp (natToCharsDigits _ c hin)]
      rfl
    · subst hdot; decide
    · subst hzero; decide
  obtain ⟨ht, hdw⟩ := takeWhileDropAppend (sciMantissa (natToChars (sciSig q)))
    'e' ((if decExponent q < 0 then '-' else '+') ::
      padZeros 2 (natToChars (decExponent q).natAbs)) hmantE (by decide)
  have hpy : pyFloatNN (renderSci q) =
      pyMantissa (sciMantissa (natToChars (sciSig q))) *
        (10:ℚ) ^ pyExp ((if decExponent q < 0 then '-' else '+') ::
          padZeros 2 (natToChars (decExponent q).natAbs)) := by
    unfold renderSci pyFloatNN
    rw [hdw, ht]
  rw [hpy, pyExpRender, pyMantissaSci hS1]
  have hSlen : 1 ≤ (natToChars (sciSig q)).length :=
    List.length_pos.mpr (natToCharsNe _)
  have he : decExponent q =
      (((natToChars (sciSig q)).length - 1 : ℕ) : ℤ) +
        (trailingZeros (sigDigitsInt q) (sigDigitsInt q) : ℤ) -
        (fracDigits q : ℤ) := by
    unfold decExponent
    rw [hD]
    omega
  have hMSq : ((sciSig q : ℚ)) *
      10 ^ trailingZeros (sigDigitsInt q) (sigDigitsInt q) =
      ((sigDigitsInt q : ℚ)) := by
    exact_mod_cast hMS
  have h10k : ((10:ℚ) ^ fracDigits q) ≠ 0 := by positivity
  have hqval : q = ((sciSig q : ℚ)) *
      10 ^ trailingZeros (sigDigitsInt q) (sigDigitsInt q) /
        10 ^ fracDigits q := by
    rw [hMSq, hMq, mul_div_assoc, div_self h10k, mul_one]
  rw [he]
  conv_rhs => rw [hqval]
  have hten : ((10:ℚ)) ≠ 0 := by norm_num
  rw [zpow_sub₀ hten, zpow_add₀ hten, zpow_natCast, zpow_natCast,
    zpow_natCast]
  field_simp
  ring

/-- The scientific rendering starts with a digit. -/
theorem renderSciHead (q : ℚ) :
    ∃ c cs, renderSci q = c :: cs ∧ c.isDigit = true := by
  obtain ⟨c, cs, hm, hc⟩ := sciMantissaHead (natToCharsDigits (sciSig q))
  refine ⟨c, cs ++ 'e' :: (if decExponent q < 0 then '-' else '+') ::
    padZeros 2 (natToChars (decExponent q).natAbs), ?_, hc⟩
  unfold renderSci
  rw [hm]
  rfl

/-- When the window test fails, `str` stays in fixed point. -/
theorem renderFloatNNFixed {q : ℚ} (h : usesScientific q = false) :
    renderFloatNN q = renderFixed q := by
  unfold renderFloatNN
  rw [h]
  rfl

/-- When the window test holds, `str` uses scientific notation. -/
theorem renderFloatNNSci {q : ℚ} (h : usesScientific q = true) :
    renderFloatNN q = renderSci q := by
  unfold renderFloatNN
  rw [h]
  rfl

/-- Zero prints in fixed point (`0.0`). -/
theorem usesScientificZero : usesScientific 0 = false := by decide

/-- Parsing the rendered form of a nonnegative decimal recovers it, in both
regimes. -/
theorem pyFloatNNRenderFull {q : ℚ} (hq : 0 ≤ q) (hd : DecimalQ q) :
    pyFloatNN (renderFloatNN q) = q := by
  by_cases hs : usesScientific q = true
  · rw [renderFloatNNSci hs]
    have hq0 : ¬ q = 0 := by
      intro h0
      rw [h0, usesScientificZero] at hs
      cases hs
    exact pyFloatNNRenderSci (lt_of_le_of_ne hq (fun h => hq0 h.symm)) hd
  · rw [renderFloatNNFixed (by simpa using hs)]
    exact pyFloatNNRenderFixed hq hd

/-- The rendered form of a nonnegative decimal starts with a digit, in both
regimes. -/
theorem renderHeadDigitFull {q : ℚ} (hq : 0 ≤ q) (hd : DecimalQ q) :
    ∃ c cs, renderFloatNN q = c :: cs ∧ c.isDigit = true := by
  by_cases hs : usesScientific q = true
  · rw [renderFloatNNSci hs]
    exact renderSciHead q
  · rw [renderFloatNNFixed (by simpa using hs)]
    exact renderFixedHeadDigit hq hd

/-- `float()` of any rendered decimal (signs included) recovers the
value. -/
theorem pyFloatRender {q : ℚ} (hd : DecimalQ q) :
    pyFloat (renderFloat q) = q := by
  unfold renderFloat
  by_cases hq : q < 0
  · rw [if_pos hq]
    have hd' : DecimalQ (-q) := by
      obtain ⟨n, hn⟩ := hd
      exact ⟨n, by rw [show -q * 10 ^ n = -(q * 10 ^ n) by ring,
        Rat.den_neg_eq_den, hn]⟩
    rw [show pyFloat ('-' :: renderFloatNN (-q)) =
      -(pyFloatNN (renderFloatNN (-q))) from rfl]
    rw [pyFloatNNRenderFull (by linarith) hd']
    ring
  · rw [if_neg hq]
    obtain ⟨c, cs, heq, hdig⟩ := renderHeadDigitFull (by linarith) hd
    rw [heq, pyFloatHeadDigit hdig, ← heq]
    exact pyFloatNNRenderFull (by linarith) hd

/-- Any unsigned mantissa parses to a nonnegative value. -/
theorem pyMantissaNonneg (cs : List Char) : 0 ≤ pyMantissa cs := by
  unfold pyMantissa
  split
  · positivity
  · positivity

/-- Any unsigned literal parses to a nonnegative value. -/
theorem pyFloatNNNonneg (cs : List Char) : 0 ≤ pyFloatNN cs := by
  unfold pyFloatNN
  split
  · exact mul_nonneg (pyMantissaNonneg _) (tenZpowNonneg _)
  · exact pyMantissaNonneg _

/-- Any unsigned mantissa parses to a decimal value. -/
theorem pyMantissaDecimal (cs : List Char) : DecimalQ (pyMantissa cs) := by
  unfold pyMantissa
  split
  · next fp heq =>
    refine ⟨fp.length, ?_⟩
    rw [add_mul, div_mul_cancel₀ _ (by positivity : ((10:ℚ) ^ fp.length) ≠ 0)]
    have : ((charsToNat (List.takeWhile Char.isDigit cs) : ℚ)) * 10 ^ fp.length +
        (charsToNat fp : ℚ) =
        (((charsToNat (List.takeWhile Char.isDigit cs)) * 10 ^ fp.length +
          charsToNat fp : ℕ) : ℚ) := by push_cast; ring
    rw [this, Rat.den_natCast]
  · exact ⟨0, by rw [pow_zero, mul_one, Rat.den_natCast]⟩

/-- An integral rational times a power of ten is integral. -/
theorem denOneMulPowTen {x : ℚ} (hx : x.den = 1) (n : ℕ) :
    (x * 10 ^ n).den = 1 := by
  have hxz : ((x.num : ℚ)) = x := (Rat.den_eq_one_iff x).mp hx
  have h2 : x * 10 ^ n = ((x.num * 10 ^ n : ℤ) : ℚ) := by
    conv_lhs => rw [← hxz]
    push_cast
    ring
  rw [h2]
  exact Rat.den_intCast _

/-- Decimals are closed under multiplication by integer powers of ten. -/
theorem decimalMulZpow {m : ℚ} (hm : DecimalQ m) (z : ℤ) :
    DecimalQ (m * (10:ℚ) ^ z) := by
  obtain ⟨L, hL⟩ := hm
  cases z with
  | ofNat n =>
    refine ⟨L, ?_⟩
    rw [show (Int.ofNat n) = ((n : ℕ) : ℤ) from rfl, zpow_natCast]
    rw [show m * 10 ^ n * 10 ^ L = m * 10 ^ L * 10 ^ n by ring]
    exact denOneMulPowTen hL n
  | negSucc n =>
    refine ⟨L + (n + 1), ?_⟩
    rw [zpow_negSucc]
    rw [show m * ((10:ℚ) ^ (n + 1))⁻¹ * 10 ^ (L + (n + 1)) =
      m * 10 ^ L * (10 ^ (n + 1) * ((10:ℚ) ^ (n + 1))⁻¹) by ring]
    rw [mul_inv_cancel₀ (by positivity : ((10:ℚ) ^ (n + 1)) ≠ 0), mul_one]
    exact hL

/-- Any unsigned literal parses to a decimal value. -/
theorem pyFloatNNDecimal (cs : List Char) : DecimalQ (pyFloatNN cs) := by
  unfold pyFloatNN
  split
  · exact decimalMulZpow (pyMantissaDecimal _) _
  · exact pyMantissaDecimal _

/-! ## Tokenizing rendered sign chains -/

theorem tokenizeNil (f pos : ℕ) : tokenizeFuel f pos [] = Except.ok [] := by
  cases f <;> rfl

/-- The scanner turns a pure `<digits>.<digits>` string into a single
`NUMBER` token carrying exactly that text. -/
theorem tokenizeNumber {f pos : ℕ} {A B : List Char}
    (hA : ∀ c ∈ A, c.isDigit = true) (hB : ∀ c ∈ B, c.isDigit = true)
    (hAne : A ≠ []) (hBne : B ≠ []) :
    tokenizeFuel (f + 1) pos (A ++ '.' :: B) =
      Except.ok [(A ++ '.' :: B, NUMBER)] := by
  cases A with
  | nil => exact absurd rfl hAne
  | cons a A' =>
    cases B with
    | nil => exact absurd rfl hBne
    | cons b B' =>
      have ha : a.isDigit = true := hA a (List.mem_cons_self _ _)
      have hb : b.isDigit = true := hB b (List.mem_cons_self _ _)
      obtain ⟨ht, hd⟩ := takeWhileDropAppend (a :: A') '.' (b :: B')
        hA (by decide)
      obtain ⟨ht2, hd2⟩ := takeWhileAll (l := b :: B') hB
      show tokenizeFuel (f + 1) pos (a :: (A' ++ '.' :: b :: B')) = _
      unfold tokenizeFuel
      rw [if_pos ha]
      have hcons : a :: (A' ++ '.' :: b :: B') = (a :: A') ++ '.' :: b :: B' := rfl
      rw [hcons, ht, hd]
      split
      · next d2 r2 heq =>
        injection heq with h1 h2
        injection h2 with h3 h4
        subst h3
        subst h4
        rw [if_pos hb, ht2, hd2]
        simp only [tokenizeNil]
        rfl
      · next r1 hnot => exact absurd rfl (hnot b B')

/-- Tokenizing the printed form of a sign chain whose leaf prints in fixed
point yields the sign tokens followed by the single `NUMBER` token.
(Outside the fixed-point window the printed leaf contains an `e`, which the
scanner rejects.) -/
theorem chainTokenize :
    ∀ (t : AST), ChainOK t → usesScientific (chainLeaf t) = false →
      ∀ (f pos : ℕ), (nodeToString t).length ≤ f →
        tokenizeFuel f pos (nodeToString t) = Except.ok (chainToks t) := by
  intro t hct
  induction hct with
  | num q hq hd =>
    intro hfix f pos hf
    simp only [chainLeaf] at hfix
    have hrf : nodeToString (AST.number q) = renderFloatNN q := by
      simp only [nodeToString, renderFloat]
      rw [if_neg (by linarith : ¬ q < 0)]
    have hfx : renderFloatNN q = renderFixed q := renderFloatNNFixed hfix
    rw [hrf, hfx] at hf ⊢
    obtain ⟨A, B, heq, hAne, hBne, hAdig, hBdig, _⟩ := renderFixedStructure hq hd
    rw [heq] at hf ⊢
    cases f with
    | zero =>
      exfalso
      cases A with
      | nil => exact hAne rfl
      | cons a A' => simp at hf
    | succ f =>
      rw [tokenizeNumber hAdig hBdig hAne hBne]
      rw [show chainToks (AST.number q) = [(renderFloatNN q, NUMBER)] from rfl]
      rw [hfx, heq]
  | sgn op t hop hct ih =>
    intro hfix f pos hf
    simp only [chainLeaf] at hfix
    rcases hop with hop | hop
    · subst hop
      rw [show nodeToString (AST.unary ['+'] t) =
        '+' :: nodeToString t from rfl] at hf ⊢
      cases f with
      | zero => simp at hf
      | succ f =>
        unfold tokenizeFuel
        rw [if_neg (by decide), if_pos rfl]
        rw [ih hfix f (pos + 1) (by simp at hf; omega)]
        rfl
    · subst hop
      rw [show nodeToString (AST.unary ['-'] t) =
        '-' :: nodeToString t from rfl] at hf ⊢
      cases f with
      | zero => simp at hf
      | succ f =>
        unfold tokenizeFuel
        rw [if_neg (by decide), if_neg (by decide), if_pos rfl]
        rw [ih hfix f (pos + 1) (by simp at hf; omega)]
        rfl

/-- Tokenizing the printed form of a sign chain, stated over `tokenize`. -/
theorem chainTokenizeTop {t : AST} (hct : ChainOK t)
    (hfix : usesScientific (chainLeaf t) = false) :
    tokenize ⟨nodeToString t⟩ = Except.ok (chainToks t) :=
  chainTokenize t hct hfix _ 0 le_rfl

/-! ## The token-shape invariant of the scanner -/

/-- Every token `tokenize` emits satisfies `tokOk`: `NUMBER` values start
with a digit, and sign tokens carry exactly their sign character. -/
theorem tokenizeTokOk :
    ∀ (f pos : ℕ) (cs : List Char) (ts : List Token),
      tokenizeFuel f pos cs = Except.ok ts → ∀ tok ∈ ts, tokOk tok := by
  intro f
  induction f with
  | zero =>
    intro pos cs ts h
    cases cs with
    | nil => simp only [tokenizeFuel] at h; cases h; simp
    | cons c rest => simp [tokenizeFuel] at h
  | succ f ih =>
    intro pos cs ts h
    cases cs with
    | nil => simp only [tokenizeFuel] at h; cases h; simp
    | cons c rest =>
      unfold tokenizeFuel at h
      by_cases hd : c.isDigit
      · rw [if_pos hd] at h
        have hds : List.takeWhile Char.isDigit (c :: rest) =
            c :: List.takeWhile Char.isDigit rest := by
          simp [List.takeWhile_cons, hd]
        split at h
        · next d2 r2 heq =>
          by_cases hd2 : d2.isDigit
          · rw [if_pos hd2] at h
            rcases (exMapOkIff _ _ _).mp h with ⟨ts', hrec, hts⟩
            subst hts
            intro tok htok
            rcases List.mem_cons.mp htok with rfl | h2
            · rw [hds]
              exact ⟨c, _, rfl, hd⟩
            · exact ih _ _ _ hrec _ h2
          · rw [if_neg hd2] at h
            rcases (exMapOkIff _ _ _).mp h with ⟨ts', hrec, hts⟩
            subst hts
            intro tok htok
            rcases List.mem_cons.mp htok with rfl | h2
            · rw [hds]
              exact ⟨c, _, rfl, hd⟩
            · exact ih _ _ _ hrec _ h2
        · next r1 hnotdot =>
          rcases (exMapOkIff _ _ _).mp h with ⟨ts', hrec, hts⟩
          subst hts
          intro tok htok
          rcases List.mem_cons.mp htok with rfl | h2
          · rw [hds]
            exact ⟨c, _, rfl, hd⟩
          · exact ih _ _ _ hrec _ h2
      · rw [if_neg hd] at h
        by_cases h1 : c = '+'
        · subst h1
          rw [if_pos rfl] at h
          rcases (exMapOkIff _ _ _).mp h with ⟨ts', hrec, hts⟩
          subst hts
          intro tok htok
          rcases List.mem_cons.mp htok with rfl | h2
          · exact rfl
          · exact ih _ _ _ hrec _ h2
        · rw [if_neg h1] at h
          by_cases h2 : c = '-'
          · subst h2
            rw [if_pos rfl] at h
            rcases (exMapOkIff _ _ _).mp h with ⟨ts', hrec, hts⟩
            subst hts
            intro tok htok
            rcases List.mem_cons.mp htok with rfl | h3
            · exact rfl
            · exact ih _ _ _ hrec _ h3
          · rw [if_neg h2] at h
            by_cases h3 : c = '*'
            · subst h3
              rw [if_pos rfl] at h
              rcases (exMapOkIff _ _ _).mp h with ⟨ts', hrec, hts⟩
              subst hts
              intro tok htok
              rcases List.mem_cons.mp htok with rfl | h4
              · exact trivial
              · exact ih _ _ _ hrec _ h4
            · rw [if_neg h3] at h
              by_cases h4 : c = '/'
              · subst h4
                rw [if_pos rfl] at h
                rcases (exMapOkIff _ _ _).mp h with ⟨ts', hrec, hts⟩
                subst hts
                intro tok htok
                rcases List.mem_cons.mp htok with rfl | h5
                · exact trivial
                · exact ih _ _ _ hrec _ h5
              · rw [if_neg h4] at h
                by_cases h5 : c = '('
                · subst h5
                  rw [if_pos rfl] at h
                  rcases (exMapOkIff _ _ _).mp h with ⟨ts', hrec, hts⟩
                  subst hts
                  intro tok htok
                  rcases List.mem_cons.mp htok with rfl | h6
                  · exact trivial
                  · exact ih _ _ _ hrec _ h6
                · rw [if_neg h5] at h
                  by_cases h6 : c = ')'
                  · subst h6
                    rw [if_pos rfl] at h
                    rcases (exMapOkIff _ _ _).mp h with ⟨ts', hrec, hts⟩
                    subst hts
                    intro tok htok
                    rcases List.mem_cons.mp htok with rfl | h7
                    · exact trivial
                    · exact ih _ _ _ hrec _ h7
                  · rw [if_neg h6] at h
                    by_cases h7 : isPySpace c
                    · rw [if_pos h7] at h
                      exact ih _ _ _ h
                    · rw [if_neg h7] at h
                      cases h

/-! ## What the parser actually accepts

Because `_factor` leaves the `NUMBER` token unconsumed, both grammar loops
exit immediately (the current token is a `NUMBER`, never an operator), the
`consume("RPAREN")` after a parenthesized expression always fails, and a
successful parse is exactly a chain of sign tokens over one number. -/

theorem parseTermLoopNum (f : ℕ) (node : AST) (v : List Char)
    (tail : List Token) :
    parseTermLoop (f + 1) node ((v, NUMBER) :: tail) =
      Except.ok (node, (v, NUMBER) :: tail) := by
  rfl

theorem parseExpressionLoopNum (f : ℕ) (node : AST) (v : List Char)
    (tail : List Token) :
    parseExpressionLoop (f + 1) node ((v, NUMBER) :: tail) =
      Except.ok (node, (v, NUMBER) :: tail) := by
  rfl

theorem factorOutRest :
    ∀ {ts : List Token} {t : AST} {rest : List Token}, FactorOut ts t rest →
      ∃ v tail, rest = (v, NUMBER) :: tail := by
  intro ts t rest h
  induction h with
  | num v tail => exact ⟨v, tail, rfl⟩
  | sgn v k ts t rest hk hf ih => exact ih

/-- Master inversion: any successful run of the factor, term or expression
production relates its input, output tree and leftover tokens by
`FactorOut`. -/
theorem parseInversion :
    ∀ f : ℕ,
      (∀ (ts : List Token) (out : AST × List Token),
        parseFactor f ts = Except.ok out → FactorOut ts out.1 out.2) ∧
      (∀ (ts : List Token) (out : AST × List Token),
        parseTerm f ts = Except.ok out → FactorOut ts out.1 out.2) ∧
      (∀ (ts : List Token) (out : AST × List Token),
        parseExpression f ts = Except.ok out → FactorOut ts out.1 out.2) := by
  intro f
  induction f with
  | zero =>
    refine ⟨?_, ?_, ?_⟩ <;> intro ts out h <;>
      simp [parseFactor, parseTerm, parseExpression] at h
  | succ f ih =>
    obtain ⟨ihF, ihT, ihE⟩ := ih
    refine ⟨?_, ?_, ?_⟩
    · intro ts out h
      cases ts with
      | nil => simp [parseFactor] at h
      | cons hd tail =>
        obtain ⟨v, k⟩ := hd
        cases k with
        | NUMBER =>
          simp only [parseFactor] at h
          cases h
          exact FactorOut.num v tail
        | LPAREN =>
          simp only [parseFactor] at h
          cases hpe : parseExpression f tail with
          | error e => rw [hpe] at h; simp only [exBindErr] at h; cases h
          | ok pr =>
            obtain ⟨node, rest⟩ := pr
            rw [hpe] at h
            simp only [exBindOk] at h
            have hfo : FactorOut tail node rest := ihE tail (node, rest) hpe
            obtain ⟨v2, tail2, hrest⟩ := factorOutRest hfo
            rw [hrest] at h
            simp at h
        | PLUS =>
          simp only [parseFactor] at h
          cases hpf : parseFactor f tail with
          | error e => rw [hpf] at h; simp only [exBindErr] at h; cases h
          | ok pr =>
            obtain ⟨operand, rest⟩ := pr
            rw [hpf] at h
            simp only [exBindOk] at h
            cases h
            exact FactorOut.sgn v PLUS tail operand rest (Or.inl rfl)
              (ihF tail (operand, rest) hpf)
        | MINUS =>
          simp only [parseFactor] at h
          cases hpf : parseFactor f tail with
          | error e => rw [hpf] at h; simp only [exBindErr] at h; cases h
          | ok pr =>
            obtain ⟨operand, rest⟩ := pr
            rw [hpf] at h
            simp only [exBindOk] at h
            cases h
            exact FactorOut.sgn v MINUS tail operand rest (Or.inr rfl)
              (ihF tail (operand, rest) hpf)
        | MULTIPLY => simp [parseFactor] at h
        | DIVIDE => simp [parseFactor] at h
        | RPAREN => simp [parseFactor] at h
    · intro ts out h
      simp only [parseTerm] at h
      cases hpf : parseFactor f ts with
      | error e => rw [hpf] at h; simp only [exBindErr] at h; cases h
      | ok pr =>
        obtain ⟨node, rest⟩ := pr
        rw [hpf] at h
        simp only [exBindOk] at h
        have hfo : FactorOut ts node rest := ihF ts (node, rest) hpf
        obtain ⟨v2, tail2, hrest⟩ := factorOutRest hfo
        subst hrest
        cases f with
        | zero => simp [parseFactor] at hpf
        | succ g =>
          rw [parseTermLoopNum g node v2 tail2] at h
          cases h
          exact hfo
    · intro ts out h
      simp only [parseExpression] at h
      cases hpt : parseTerm f ts with
      | error e => rw [hpt] at h; simp only [exBindErr] at h; cases h
      | ok pr =>
        obtain ⟨node, rest⟩ := pr
        rw [hpt] at h
        simp only [exBindOk] at h
        have hfo : FactorOut ts node rest := ihT ts (node, rest) hpt
        obtain ⟨v2, tail2, hrest⟩ := factorOutRest hfo
        subst hrest
        cases f with
        | zero => simp [parseTerm] at hpt
        | succ g =>
          rw [parseExpressionLoopNum g node v2 tail2] at h
          cases h
          exact hfo

/-- A successful `parse` is characterized by `FactorOut`. -/
theorem parseFactorOut {ts : List Token} {t : AST}
    (h : parse ts = Except.ok t) : ∃ rest, FactorOut ts t rest := by
  unfold parse at h
  cases hpe : parseExpression (3 * ts.length + 3) ts with
  | error e => rw [hpe] at h; cases h
  | ok pr =>
    obtain ⟨t', rest⟩ := pr
    rw [hpe] at h
    cases h
    exact ⟨rest, (parseInversion _).2.2 ts (t', rest) hpe⟩

/-- With the scanner's token-shape invariant, every parsed tree is a sign
chain over a nonnegative decimal leaf. -/
theorem factorOutChain :
    ∀ {ts : List Token} {t : AST} {rest : List Token}, FactorOut ts t rest →
      (∀ tok ∈ ts, tokOk tok) → ChainOK t := by
  intro ts t rest h
  induction h with
  | num v tail =>
    intro htok
    obtain ⟨c, cs', rfl, hc⟩ := htok (v, NUMBER) (List.mem_cons_self _ _)
    rw [pyFloatHeadDigit hc]
    exact ChainOK.num _ (pyFloatNNNonneg _) (pyFloatNNDecimal _)
  | sgn v k ts t rest hk hf ih =>
    intro htok
    have h1 := htok (v, k) (List.mem_cons_self _ _)
    have hop : v = ['+'] ∨ v = ['-'] := by
      rcases hk with rfl | rfl
      · exact Or.inl h1
      · exact Or.inr h1
    exact ChainOK.sgn v _ hop (ih (fun tok htk => htok tok
      (List.mem_cons_of_mem _ htk)))

/-- `float()` of the rendered nonnegative decimal, signs route included. -/
theorem pyFloatRenderNNFull {q : ℚ} (hq : 0 ≤ q) (hd : DecimalQ q) :
    pyFloat (renderFloatNN q) = q := by
  obtain ⟨c, cs, heq, hdig⟩ := renderHeadDigitFull hq hd
  rw [heq, pyFloatHeadDigit hdig, ← heq]
  exact pyFloatNNRenderFull hq hd

/-- Reparsing the token chain of a printed sign chain rebuilds exactly the
same tree, leaving the final `NUMBER` token unconsumed. -/
theorem parseFactorChain :
    ∀ (t : AST), ChainOK t → ∀ g : ℕ, (chainToks t).length ≤ g →
      parseFactor (g + 1) (chainToks t) =
        Except.ok (t, [(renderFloatNN (chainLeaf t), NUMBER)]) := by
  intro t hct
  induction hct with
  | num q hq hd =>
    intro g _
    simp only [chainToks, chainLeaf, parseFactor]
    rw [pyFloatRenderNNFull hq hd]
  | sgn op t hop hct ih =>
    intro g hg
    rcases hop with hop | hop
    · subst hop
      rw [show chainToks (AST.unary ['+'] t) =
        (['+'], PLUS) :: chainToks t from rfl] at hg ⊢
      simp only [List.length_cons] at hg
      cases g with
      | zero => omega
      | succ g' =>
        have hstep : parseFactor (g' + 1 + 1) ((['+'], PLUS) :: chainToks t) =
            (parseFactor (g' + 1) (chainToks t)) >>= (fun pr =>
              Except.ok (AST.unary ['+'] pr.1, pr.2)) := rfl
        rw [hstep, ih g' (by omega)]
        rfl
    · subst hop
      rw [show chainToks (AST.unary ['-'] t) =
        (['-'], MINUS) :: chainToks t from rfl] at hg ⊢
      simp only [List.length_cons] at hg
      cases g with
      | zero => omega
      | succ g' =>
        have hstep : parseFactor (g' + 1 + 1) ((['-'], MINUS) :: chainToks t) =
            (parseFactor (g' + 1) (chainToks t)) >>= (fun pr =>
              Except.ok (AST.unary ['-'] pr.1, pr.2)) := rfl
        rw [hstep, ih g' (by omega)]
        rfl

/-- Reparsing the printed form of a parsed sign chain gives the same tree. -/
theorem parseChain {t : AST} (hct : ChainOK t) :
    parse (chainToks t) = Except.ok t := by
  unfold parse
  have h1 : parseFactor (3 * (chainToks t).length + 1) (chainToks t) =
      Except.ok (t, [(renderFloatNN (chainLeaf t), NUMBER)]) := by
    rw [show 3 * (chainToks t).length + 1 =
      (3 * (chainToks t).length) + 1 from rfl]
    exact parseFactorChain t hct _ (by omega)
  have h2 : parseTerm (3 * (chainToks t).length + 2) (chainToks t) =
      Except.ok (t, [(renderFloatNN (chainLeaf t), NUMBER)]) := by
    rw [show 3 * (chainToks t).length + 2 =
      (3 * (chainToks t).length + 1) + 1 from rfl]
    simp only [parseTerm]
    rw [h1]
    simp only [exBindOk]
    rw [show 3 * (chainToks t).length + 1 =
      (3 * (chainToks t).length) + 1 from rfl]
    exact parseTermLoopNum _ _ _ _
  have h3 : parseExpression (3 * (chainToks t).length + 3) (chainToks t) =
      Except.ok (t, [(renderFloatNN (chainLeaf t), NUMBER)]) := by
    rw [show 3 * (chainToks t).length + 3 =
      (3 * (chainToks t).length + 2) + 1 from rfl]
    simp only [parseExpression]
    rw [h2]
    simp only [exBindOk]
    rw [show 3 * (chainToks t).length + 2 =
      (3 * (chainToks t).length + 1) + 1 from rfl]
    exact parseExpressionLoopNum _ _ _ _
  rw [h3]
  rfl

/-- A sign chain always evaluates, to a decimal value. -/
theorem chainEval :
    ∀ {t : AST}, ChainOK t →
      ∃ v, evaluateNode t = Except.ok v ∧ DecimalQ v := by
  intro t hct
  induction hct with
  | num q hq hd => exact ⟨q, rfl, hd⟩
  | sgn op t hop hct ih =>
    obtain ⟨v, hv, hd⟩ := ih
    by_cases hop2 : op = ['+']
    · exact ⟨v, by simp [evaluateNode, hv, hop2], hd⟩
    · refine ⟨-v, by simp [evaluateNode, hv, hop2], ?_⟩
      obtain ⟨n, hn⟩ := hd
      exact ⟨n, by rw [show -v * 10 ^ n = -(v * 10 ^ n) by ring,
        Rat.den_neg_eq_den, hn]⟩

/-- C3 counterexample: the ordinary input `0.00001` tokenizes and parses
successfully, but `to_string` of the parsed leaf is the scientific literal
`1e-05`, which `tokenize` rejects with `Invalid character 'e' at position
1` — the print/re-tokenize/re-parse round trip fails, refuting the
unrestricted claim. -/
theorem claim3_counterexample :
    tokenize "0.00001" =
      Except.ok [(['0', '.', '0', '0', '0', '0', '1'], NUMBER)] ∧
    parse [(['0', '.', '0', '0', '0', '0', '1'], NUMBER)] =
      Except.ok (AST.number (1 / 100000)) ∧
    nodeToString (AST.number (1 / 100000)) = "1e-05".data ∧
    tokenize ⟨nodeToString (AST.number (1 / 100000))⟩ =
      Except.error (invalidCharMsg 'e' 1) :=
  ⟨by decide, by decide, by decide, by decide⟩

/-- C3 (amended): for every successfully parsed AST whose leaf prints in
fixed-point notation (decimal exponent in `[-4, 16)`, i.e. value zero or
magnitude in `[1e-4, 1e16)`), printing it, tokenizing that string and
parsing again rebuilds the **same** AST, so printing again and evaluating
agree with the original.  Outside that window `str` produces a scientific
literal whose `e` the tokenizer rejects. -/
theorem claim3_round_trip_in_fixed_window (s : String) (ts : List Token)
    (t : AST) (h1 : tokenize s = Except.ok ts) (h2 : parse ts = Except.ok t)
    (h3 : usesScientific (chainLeaf t) = false) :
    ∃ ts', tokenize ⟨nodeToString t⟩ = Except.ok ts' ∧
      parse ts' = Except.ok t ∧ ∃ v, evaluateNode t = Except.ok v := by
  have htok := tokenizeTokOk _ _ _ _ h1
  obtain ⟨rest, hfo⟩ := parseFactorOut h2
  have hct := factorOutChain hfo htok
  obtain ⟨v, hv, _⟩ := chainEval hct
  exact ⟨chainToks t, chainTokenizeTop hct h3, parseChain hct, v, hv⟩

/-- C3 witness: the round trip at `"-2.5"`, whose leaf `2.5` prints in
fixed point. -/
theorem claim3_witness :
    tokenize "-2.5" = Except.ok
      [(['-'], MINUS), (['2', '.', '5'], NUMBER)] ∧
    parse [(['-'], MINUS), (['2', '.', '5'], NUMBER)] =
      Except.ok (AST.unary ['-'] (AST.number (5 / 2))) ∧
    usesScientific (chainLeaf (AST.unary ['-'] (AST.number (5 / 2)))) =
      false ∧
    (∃ ts', tokenize ⟨nodeToString (AST.unary ['-'] (AST.number (5 / 2)))⟩ =
        Except.ok ts' ∧
      parse ts' = Except.ok (AST.unary ['-'] (AST.number (5 / 2))) ∧
      ∃ v, evaluateNode (AST.unary ['-'] (AST.number (5 / 2))) =
        Except.ok v) :=
  ⟨by decide, by decide, by decide,
    claim3_round_trip_in_fixed_window "-2.5"
      [(['-'], MINUS), (['2', '.', '5'], NUMBER)]
      (AST.unary ['-'] (AST.number (5 / 2))) (by decide) (by decide)
      (by decide)⟩

/-! ## C2: the substitution solver's contract -/

theorem evalUnaryEq (op : List Char) (r : AST) :
    evaluateNode (AST.unary op r) =
      evaluateNode r >>= fun operand =>
        if op = ['+'] then Except.ok operand else Except.ok (-operand) := rfl

theorem evalBinaryEq (op : List Char) (l r : AST) :
    evaluateNode (AST.binary op l r) =
      evaluateNode l >>= fun lv =>
        evaluateNode r >>= fun rv => applyBin op lv rv := rfl

theorem solveInUnaryEq (ctx : AST → AST) (op : List Char) (r : AST) :
    solveIn ctx (AST.unary op r) =
      solveIn (fun x => ctx (AST.unary op x)) r >>= fun pr =>
        Except.ok ((if op = ['+'] then pr.1 else -pr.1),
          pr.2 ++ [ctx (AST.number (if op = ['+'] then pr.1 else -pr.1))]) := rfl

theorem solveInBinaryEq (ctx : AST → AST) (op : List Char) (l r : AST) :
    solveIn ctx (AST.binary op l r) =
      solveIn (fun x => ctx (AST.binary op x r)) l >>= fun p1 =>
        solveIn (fun x => ctx (AST.binary op (AST.number p1.1) x)) r >>= fun p2 =>
          applyBin op p1.1 p2.1 >>= fun v =>
            Except.ok (v, p1.2 ++ p2.2 ++ [ctx (AST.number v)]) := rfl

theorem getLastConcat {α : Type} (l : List α) (x : α) :
    (l ++ [x]).getLast? = some x := by
  induction l with
  | nil => rfl
  | cons a l ih =>
    cases l with
    | nil => rfl
    | cons b l' =>
      rw [List.cons_append, List.cons_append, List.getLast?_cons_cons]
      rw [← List.cons_append]
      exact ih

theorem getLastMap {α β : Type} (g : α → β) :
    ∀ (l : List α) (x : α), l.getLast? = some x →
      (l.map g).getLast? = some (g x) := by
  intro l
  induction l with
  | nil => intro x h; cases h
  | cons a l ih =>
    intro x h
    cases l with
    | nil =>
      cases h
      rfl
    | cons b l' =>
      rw [List.getLast?_cons_cons] at h
      rw [List.map_cons, List.map_cons, List.getLast?_cons_cons]
      rw [← List.map_cons]
      exact ih x h

theorem getLastConsNe {α : Type} (a : α) {l : List α} (h : l ≠ []) :
    (a :: l).getLast? = l.getLast? := by
  cases l with
  | nil => exact absurd rfl h
  | cons b l' => exact List.getLast?_cons_cons ..

theorem dedupAdjHead (a : List Char) (l : List (List Char)) :
    (dedupAdj (a :: l)).head? = some a := rfl

theorem dedupGoLast :
    ∀ (l : List (List Char)) (prev : List Char),
      (prev :: dedupAdjGo prev l).getLast? = (prev :: l).getLast? := by
  intro l
  induction l with
  | nil => intro prev; rfl
  | cons b rest ih =>
    intro prev
    by_cases hb : b = prev
    · rw [show dedupAdjGo prev (b :: rest) = dedupAdjGo prev rest from by
        simp [dedupAdjGo, hb]]
      subst hb
      rw [ih b, List.getLast?_cons_cons]
    · rw [show dedupAdjGo prev (b :: rest) = b :: dedupAdjGo b rest from by
        simp [dedupAdjGo, hb]]
      rw [List.getLast?_cons_cons, List.getLast?_cons_cons]
      exact ih b

theorem dedupAdjLast (a : List Char) (l : List (List Char)) :
    (dedupAdj (a :: l)).getLast? = (a :: l).getLast? :=
  dedupGoLast l a

theorem dedupAdjNeNil (a : List Char) (l : List (List Char)) :
    dedupAdj (a :: l) ≠ [] := by
  simp [dedupAdj]

/-- Whenever evaluation succeeds, the substitution pass computes the same
value; the snapshot list is empty only for a bare number, and otherwise its
last snapshot is the root with the whole subtree collapsed to the final
value. -/
theorem solveInOk :
    ∀ (t : AST) (v : ℚ), evaluateNode t = Except.ok v → ∀ ctx : AST → AST,
      ∃ snaps, solveIn ctx t = Except.ok (v, snaps) ∧
        ((snaps = [] ∧ t = AST.number v) ∨
          snaps.getLast? = some (ctx (AST.number v))) := by
  intro t
  induction t with
  | number q =>
    intro v h ctx
    cases h
    exact ⟨[], rfl, Or.inl ⟨rfl, rfl⟩⟩
  | unary op r ihr =>
    intro v h ctx
    rw [evalUnaryEq] at h
    cases her : evaluateNode r with
    | error e => rw [her] at h; simp only [exBindErr] at h; cases h
    | ok rv =>
      rw [her] at h
      simp only [exBindOk] at h
      obtain ⟨snaps, hs, _⟩ := ihr rv her (fun x => ctx (AST.unary op x))
      refine ⟨snaps ++ [ctx (AST.number v)], ?_, Or.inr (getLastConcat _ _)⟩
      rw [solveInUnaryEq, hs]
      simp only [exBindOk]
      by_cases hop : op = ['+']
      · rw [if_pos hop] at h
        cases h
        simp [hop]
      · rw [if_neg hop] at h
        cases h
        simp [hop]
  | binary op l r ihl ihr =>
    intro v h ctx
    rw [evalBinaryEq] at h
    cases hl : evaluateNode l with
    | error e => rw [hl] at h; simp only [exBindErr] at h; cases h
    | ok lv =>
      rw [hl] at h
      simp only [exBindOk] at h
      cases hr : evaluateNode r with
      | error e => rw [hr] at h; simp only [exBindErr] at h; cases h
      | ok rv =>
        rw [hr] at h
        simp only [exBindOk] at h
        obtain ⟨s1, hs1, _⟩ := ihl lv hl (fun x => ctx (AST.binary op x r))
        obtain ⟨s2, hs2, _⟩ :=
          ihr rv hr (fun x => ctx (AST.binary op (AST.number lv) x))
        refine ⟨s1 ++ s2 ++ [ctx (AST.number v)], ?_,
          Or.inr (getLastConcat _ _)⟩
        rw [solveInBinaryEq, hs1]
        simp only [exBindOk]
        rw [hs2]
        simp only [exBindOk]
        rw [h]
        simp only [exBindOk]

/-- C2: for every successfully parsed AST, the (spec-modelled) substitution
solver returns a non-empty ordered snapshot sequence whose first element is
`toString` of the parse and whose last element is the bare numeric string of
`evaluate`'s result (parsing back, via `float()`, to exactly that value). -/
theorem claim2_substitution_solver (s : String) (ts : List Token) (t : AST)
    (h1 : tokenize s = Except.ok ts) (h2 : parse ts = Except.ok t) :
    ∃ steps v, solveBySubstitution t = Except.ok steps ∧
      evaluateNode t = Except.ok v ∧ steps ≠ [] ∧
      steps.head? = some (nodeToString t) ∧
      steps.getLast? = some (renderFloat v) ∧
      pyFloat (renderFloat v) = v := by
  have htok := tokenizeTokOk _ _ _ _ h1
  obtain ⟨rest, hfo⟩ := parseFactorOut h2
  have hct := factorOutChain hfo htok
  obtain ⟨v, hv, hdv⟩ := chainEval hct
  obtain ⟨snaps, hsolve, hlast⟩ := solveInOk t v hv id
  refine ⟨dedupAdj (nodeToString t :: snaps.map nodeToString), v, ?_, hv,
    dedupAdjNeNil _ _, dedupAdjHead _ _, ?_, pyFloatRender hdv⟩
  · unfold solveBySubstitution
    rw [hsolve]
    rfl
  · rw [dedupAdjLast]
    rcases hlast with ⟨hsnil, hteq⟩ | hlast2
    · subst hsnil
      subst hteq
      rfl
    · have hne : snaps ≠ [] := by
        intro hnil
        rw [hnil] at hlast2
        cases hlast2
      have hmapne : snaps.map nodeToString ≠ [] := by simpa using hne
      rw [getLastConsNe _ hmapne]
      exact getLastMap nodeToString snaps (AST.number v) hlast2

/-- C2 witness: the solver contract at `"7.5"`. -/
theorem claim2_witness :
    tokenize "7.5" = Except.ok [(['7', '.', '5'], NUMBER)] ∧
    parse [(['7', '.', '5'], NUMBER)] = Except.ok (AST.number (15 / 2)) ∧
    (∃ steps v, solveBySubstitution (AST.number (15 / 2)) = Except.ok steps ∧
      evaluateNode (AST.number (15 / 2)) = Except.ok v ∧ steps ≠ [] ∧
      steps.head? = some (nodeToString (AST.number (15 / 2))) ∧
      steps.getLast? = some (renderFloat v) ∧
      pyFloat (renderFloat v) = v) :=
  ⟨by decide, by decide,
    claim2_substitution_solver "7.5" [(['7', '.', '5'], NUMBER)]
      (AST.number (15 / 2)) (by decide) (by decide)⟩

end Aritmath
